import Mathlib

/-!
Verification development for the mini-redis durable cache engine.

The Go source keeps three `map[string]...` fields (`data`, `expires`,
`lastAccess`) inside a `Cache` struct, an append-only file (AOF) of JSON
command records, and a JSON snapshot file.  We embed the maps as
association lists (`List (String × β)`); the list order models the
(otherwise unspecified) iteration order of a Go map, which matters only in
`evictLRU`.  Go `time.Time` values are embedded as `Nat` instants, with the
zero-time "no expiry" sentinel embedded as `none : Option Nat`
(`t.IsZero()` becomes `= none`, and `now.After(t)` on a non-zero `t`
becomes `t < now`).
-/

set_option autoImplicit false

namespace MiniRedis

universe u

variable {β : Type u}

/-- Go map read `m[k]`: first entry with the given key (keys are unique in
any state reachable from a real Go map). -/
def mapLookup (k : String) : List (String × β) → Option β
  | [] => none
  | kv :: rest => if kv.1 = k then some kv.2 else mapLookup k rest

/-- Go map write `m[k] = v`: replace the value in place if the key is
present, otherwise append the new binding. -/
def mapInsert (k : String) (v : β) : List (String × β) → List (String × β)
  | [] => [(k, v)]
  | kv :: rest => if kv.1 = k then (k, v) :: rest else kv :: mapInsert k v rest

/-- Go map `delete(m, k)`: drop every binding of the key. -/
def mapErase (k : String) (l : List (String × β)) : List (String × β) :=
  l.filter fun kv => !(kv.1 == k)

/-- The key sequence of an association list. -/
def keysOf (l : List (String × β)) : List String :=
  l.map Prod.fst

/-! ## The AOF command record (`AOFCommand` in `aof.go`) -/

/-- One JSON line of the append-only file: `{"op","key","value","ttl"}`.
`ttl` is Go `int` (seconds); 0 means no expiry. -/
structure AOFCommand where
  op : String
  key : String
  value : String
  ttl : Int
deriving DecidableEq, Repr

/-! ## The cache state (`Cache` struct in `cache.go`, LRU version)

The `log` field models the durable contents already appended to the AOF
file by the attached `AOF` value (`c.aof`), in append order; `enabled`
models `aof.enabled`, which `Replay` switches off while it runs.  The
`aof != nil` guards in the source are always true after `NewCache`, which
is the only constructor. -/

structure Cache where
  data : List (String × String)
  expires : List (String × Option Nat)
  lastAccess : List (String × Nat)
  maxKeys : Nat
  log : List AOFCommand
  enabled : Bool
deriving DecidableEq, Repr

/-- The in-memory state of a fresh `Cache` before snapshot load / replay
(`NewCache` initializes empty maps and stores `maxKeys`). -/
def initCache (maxKeys : Nat) : Cache :=
  { data := [], expires := [], lastAccess := [], maxKeys := maxKeys,
    log := [], enabled := true }

/-- `expiresAt.IsZero() == false && now.After(expiresAt)` for a stored
expiry value (`none` embeds Go's zero `time.Time`). -/
def expVal (now : Nat) : Option Nat → Bool
  | some t => decide (t < now)
  | none => false

/-- Whether `k` is expired according to an expiry map: no entry means no
expiration, a `none` entry is the zero-time sentinel (never expires),
otherwise compare with `now` (this is `Cache.isExpired`). -/
def keyExpiredIn (exps : List (String × Option Nat)) (now : Nat) (k : String) : Bool :=
  match mapLookup k exps with
  | some e => expVal now e
  | none => false

/-- `Cache.hasKey`: `_, exists := c.data[key]`. -/
def hasKey (c : Cache) (key : String) : Bool :=
  (mapLookup key c.data).isSome

/-- `Cache.isExpired` (lock held). -/
def isExpired (c : Cache) (now : Nat) (key : String) : Bool :=
  keyExpiredIn c.expires now key

/-- The expiry value stored by `Set`/`setInternal`:
`time.Now().Add(ttl)` when `ttl > 0`, else the zero time. -/
def expiryOf (now : Nat) (ttl : Int) : Option Nat :=
  if 0 < ttl then some (now + ttl.toNat) else none

/-- `AOF.LogSet`: append a SET record when logging is enabled; the logged
`ttl` field is `int(ttl.Seconds())` when `ttl > 0`, else 0. -/
def logSet (key value : String) (ttl : Int) (c : Cache) : Cache :=
  if c.enabled then
    { c with log := c.log ++ [{ op := "SET", key := key, value := value,
                                ttl := if 0 < ttl then ttl else 0 }] }
  else c

/-- `AOF.LogDel`: append a DEL record when logging is enabled (the
`value`/`ttl` fields keep their Go zero values). -/
def logDel (key : String) (c : Cache) : Cache :=
  if c.enabled then
    { c with log := c.log ++ [{ op := "DEL", key := key, value := "", ttl := 0 }] }
  else c

/-- The complement of `keyExpiredIn`: the key survives the expiry checks
of `cleanupExpiredLocked` / `countValidKeys` / `SaveSnapshot`. -/
def liveKey (exps : List (String × Option Nat)) (now : Nat) (k : String) : Bool :=
  !keyExpiredIn exps now k

/-- `Cache.cleanupExpiredLocked`: delete every key whose expiry entry is a
non-zero instant in the past from all three maps. -/
def cleanupExpiredLocked (now : Nat) (c : Cache) : Cache :=
  { c with data := c.data.filter fun kv => liveKey c.expires now kv.1,
           expires := c.expires.filter fun kv => liveKey c.expires now kv.1,
           lastAccess := c.lastAccess.filter fun kv => liveKey c.expires now kv.1 }

/-- `Cache.countValidKeys`: the number of `data` keys that are not
expired. -/
def countValidKeys (c : Cache) (now : Nat) : Nat :=
  (c.data.filter fun kv => liveKey c.expires now kv.1).length

/-- The selection loop of `Cache.evictLRU`: walk `lastAccess` in iteration
order, skip expired keys, keep the first entry with the strictly smallest
access time (`accessTime.Before(oldestTime)`). `none` plays the role of
`first == true`. -/
def findLRULoop (isExp : String → Bool) :
    List (String × Nat) → Option (String × Nat) → Option (String × Nat)
  | [], best => best
  | (k, t) :: rest, best =>
    if isExp k then findLRULoop isExp rest best
    else
      match best with
      | none => findLRULoop isExp rest (some (k, t))
      | some (bk, bt) =>
        if t < bt then findLRULoop isExp rest (some (k, t))
        else findLRULoop isExp rest (some (bk, bt))

/-- The `lruKey` computed by `Cache.evictLRU`; `""` is the Go zero value
that `lruKey` keeps when no valid key is found. -/
def findLRU (now : Nat) (c : Cache) : String :=
  match findLRULoop (fun k => isExpired c now k) c.lastAccess none with
  | none => ""
  | some (k, _) => k

/-- `Cache.evictLRU` (lock held): remove the least-recently-used valid key
from all three maps and log a DEL record for it. -/
def evictLRU (now : Nat) (c : Cache) : Cache :=
  if c.lastAccess.isEmpty then c
  else
    let lruKey := findLRU now c
    if lruKey = "" then c
    else
      logDel lruKey
        { c with data := mapErase lruKey c.data,
                 expires := mapErase lruKey c.expires,
                 lastAccess := mapErase lruKey c.lastAccess }

/-- `Cache.setInternal` (the replay path of SET, no AOF logging of the SET
itself): record whether the key is new, sweep expired keys, evict the LRU
key when at capacity, then write all three maps. -/
def setInternal (key value : String) (ttl : Int) (now : Nat) (c : Cache) : Cache :=
  let isNewKey := !(hasKey c key)
  let c1 := cleanupExpiredLocked now c
  let c2 := if decide (0 < c1.maxKeys) && isNewKey &&
               decide (c1.maxKeys ≤ countValidKeys c1 now) then
              evictLRU now c1
            else c1
  { c2 with data := mapInsert key value c2.data,
            expires := mapInsert key (expiryOf now ttl) c2.expires,
            lastAccess := mapInsert key now c2.lastAccess }

/-- `Cache.Set`: the same body as `setInternal` followed by
`c.aof.LogSet(key, value, ttl)`. -/
def cacheSet (key value : String) (ttl : Int) (now : Nat) (c : Cache) : Cache :=
  logSet key value ttl (setInternal key value ttl now c)

/-- `Cache.Get`: absent key returns `("", false)`; a present key with a
non-zero expiry in the past is deleted from all three maps and reported
absent (no AOF record); otherwise `lastAccess[key] = now` and the value is
returned. -/
def cacheGet (key : String) (now : Nat) (c : Cache) : Cache × String × Bool :=
  match mapLookup key c.data with
  | none => (c, ("", false))
  | some value =>
    if keyExpiredIn c.expires now key then
      ({ c with data := mapErase key c.data,
                expires := mapErase key c.expires,
                lastAccess := mapErase key c.lastAccess }, ("", false))
    else
      ({ c with lastAccess := mapInsert key now c.lastAccess }, (value, true))

/-- `Cache.delInternal` (the replay path of DEL): remove the key from all
three maps without logging. -/
def delInternal (key : String) (c : Cache) : Cache :=
  { c with data := mapErase key c.data,
           expires := mapErase key c.expires,
           lastAccess := mapErase key c.lastAccess }

/-- `Cache.Del`: remove the key from all three maps, then
`c.aof.LogDel(key)`. -/
def cacheDel (key : String) (c : Cache) : Cache :=
  logDel key (delInternal key c)

/-- `Cache.Cleanup`: the periodic sweep, `cleanupExpiredLocked` under the
lock. -/
def cacheCleanup (now : Nat) (c : Cache) : Cache :=
  cleanupExpiredLocked now c

/-! ## AOF replay (`AOF.Replay`)

One scanned line of the AOF file after `TrimSpace`: either empty,
a line `json.Unmarshal` rejects (including a truncated final line left by
a crash mid-write), or a decoded `AOFCommand` (whose `op` tag may still be
unknown). -/

inductive AOFLine where
  | blank
  | malformed
  | record (cmd : AOFCommand)
deriving DecidableEq, Repr

/-- The body of the scan loop in `AOF.Replay`: empty lines and lines that
fail to parse are skipped, `"SET"`/`"DEL"` records are applied through the
non-logging mutation path, and unknown op tags are skipped with a
warning. -/
def replayLine (now : Nat) (c : Cache) (l : AOFLine) : Cache :=
  match l with
  | .blank => c
  | .malformed => c
  | .record cmd =>
    if cmd.op = "SET" then setInternal cmd.key cmd.value cmd.ttl now c
    else if cmd.op = "DEL" then delInternal cmd.key c
    else c

/-- The scan loop of `AOF.Replay` over the lines the scanner delivers
(logging is disabled by the caller for the duration; replay itself never
appends).  The scanner-error abort path of `Replay` — `scanner.Err()`
checked after the loop — is modeled by `scanReplay`/`replayFull` below. -/
def replay (now : Nat) (c : Cache) (lines : List AOFLine) : Cache :=
  lines.foldl (replayLine now) c

/-- One raw line of the AOF file as `bufio.Scanner` sees it: either a
line within the scanner's 64 KiB token limit, delivered to the loop body
(trimmed and decoded, an `AOFLine`), or an over-long line, on which
`Scan()` returns false and `scanner.Err()` reports `bufio.ErrTooLong`. -/
inductive RawLine where
  | ok (l : AOFLine)
  | tooLong
deriving DecidableEq, Repr

/-- The scanned token of a raw line: `none` for an over-long line the
scanner never delivers. -/
def rawOk : RawLine → Option AOFLine
  | .ok l => some l
  | .tooLong => none

/-- The scan loop of `AOF.Replay` with the scanner's failure visible:
delivered lines are processed in order; at an over-long line `Scan()`
returns false with the cache mutated so far and the error flag set. -/
def scanReplay (now : Nat) (c : Cache) : List RawLine → Cache × Bool
  | [] => (c, true)
  | .ok l :: rest => scanReplay now (replayLine now c l) rest
  | .tooLong :: _ => (c, false)

/-- `AOF.Replay` in full: after the scan loop, a non-nil `scanner.Err()`
(e.g. `bufio.ErrTooLong`) makes `Replay` return an error, which `NewCache`
propagates and `main` treats as fatal — recovery aborts. -/
def replayFull (now : Nat) (c : Cache) (file : List RawLine) : Except String Cache :=
  match scanReplay now c file with
  | (c', true) => Except.ok c'
  | (_, false) => Except.error "error reading AOF file"

/-! ## Snapshot (`snapshot.go`) -/

/-- `SnapshotEntry`: `expiresAt = none` embeds the zero `time.Time`
serialized for keys with no expiration. -/
structure SnapEntry where
  key : String
  value : String
  expiresAt : Option Nat
deriving DecidableEq, Repr

/-- `Snapshot`: the versioned point-in-time dump. -/
structure Snapshot where
  version : String
  timestamp : Nat
  entries : List SnapEntry
deriving DecidableEq, Repr

/-- The entry list materialized by `Cache.SaveSnapshot`: every non-expired
`data` entry, with its expiry instant when one is set. -/
def snapshotOf (c : Cache) (now : Nat) : Snapshot :=
  { version := "1.0", timestamp := now,
    entries := (c.data.filter fun kv => liveKey c.expires now kv.1).map
      fun kv => { key := kv.1, value := kv.2,
                  expiresAt := (mapLookup kv.1 c.expires).join } }

/-- The state restoration of `Cache.LoadSnapshot` on a successfully
decoded snapshot: clear the three maps, then insert every entry that is
not already expired, with `lastAccess = now`. -/
def loadSnapshotState (snap : Snapshot) (now : Nat) (c : Cache) : Cache :=
  snap.entries.foldl
    (fun acc e =>
      if expVal now e.expiresAt then acc
      else
        { acc with data := mapInsert e.key e.value acc.data,
                   expires := mapInsert e.key e.expiresAt acc.expires,
                   lastAccess := mapInsert e.key now acc.lastAccess })
    { c with data := [], expires := [], lastAccess := [] }

/-- The startup path of `NewCache(aofPath, snapshotPath, maxKeys)`:
load the snapshot if one exists and decodes, then replay the AOF with
logging disabled, then re-enable logging. -/
def startupState (snap : Option Snapshot) (lines : List AOFLine)
    (loadNow replayNow : Nat) (maxKeys : Nat) : Cache :=
  let c0 := initCache maxKeys
  let c1 := match snap with
    | some s => loadSnapshotState s loadNow c0
    | none => c0
  let c2 := replay replayNow { c1 with enabled := false } lines
  { c2 with enabled := true }

/-! ## Snapshot-then-truncate (`CreateSnapshotAndClearAOF`) -/

/-- The durable files owned by the cache: the AOF contents (as decoded
records), the published snapshot file, and the `path + ".tmp"` temporary
file used by the atomic snapshot write. -/
structure DiskState where
  aofRecords : List AOFCommand
  snapFile : Option Snapshot
  tmpFile : Option Snapshot
deriving DecidableEq, Repr

/-- The I/O steps of `Cache.SaveSnapshot` that can fail. -/
inductive SnapFail where
  | createTmp
  | encode
  | sync
  | closeTmp
  | rename
deriving DecidableEq, Repr

/-- `Cache.SaveSnapshot` with its failure points made explicit: on any
failure the temporary file is removed (or was never created) and an error
is returned; only a fully successful run renames the temp file over the
published snapshot.  The AOF file is never touched. -/
def saveSnapshot (fail : Option SnapFail) (c : Cache) (now : Nat)
    (d : DiskState) : DiskState × Bool :=
  match fail with
  | some .createTmp => (d, false)
  | some .encode => ({ d with tmpFile := none }, false)
  | some .sync => ({ d with tmpFile := none }, false)
  | some .closeTmp => ({ d with tmpFile := none }, false)
  | some .rename => ({ d with tmpFile := none }, false)
  | none => ({ d with tmpFile := none, snapFile := some (snapshotOf c now) }, true)

/-- `Cache.ClearAOF`: flush, close, truncate the AOF file to length 0 and
reopen it in append mode. -/
def clearAOF (d : DiskState) : DiskState :=
  { d with aofRecords := [] }

/-- `Cache.CreateSnapshotAndClearAOF`: save a snapshot; only if that
succeeds, clear the AOF. -/
def createSnapshotAndClearAOF (fail : Option SnapFail) (c : Cache) (now : Nat)
    (d : DiskState) : DiskState × Bool :=
  let r := saveSnapshot fail c now d
  if r.2 then (clearAOF r.1, true) else (r.1, false)

/-! ## Operation traces -/

/-- One engine operation, as dispatched to the cache facade: the three
public mutators, the periodic sweep, and the two non-logging replay
primitives used during recovery. -/
inductive Op where
  | set (key value : String) (ttl : Int)
  | get (key : String)
  | del (key : String)
  | cleanup
  | setI (key value : String) (ttl : Int)
  | delI (key : String)
deriving DecidableEq, Repr

/-- Apply one timestamped operation. -/
def stepOp (c : Cache) (t : Nat × Op) : Cache :=
  match t.2 with
  | .set k v ttl => cacheSet k v ttl t.1 c
  | .get k => (cacheGet k t.1 c).1
  | .del k => cacheDel k c
  | .cleanup => cacheCleanup t.1 c
  | .setI k v ttl => setInternal k v ttl t.1 c
  | .delI k => delInternal k c

/-- Run a timestamped operation sequence. -/
def runOps (c : Cache) (ops : List (Nat × Op)) : Cache :=
  ops.foldl stepOp c

/-- The structural invariant of a cache state: `data`, `expires` and
`lastAccess` have the same key sequence (hence the same key set), with no
duplicate keys. -/
structure Wf (c : Cache) : Prop where
  alignE : keysOf c.data = keysOf c.expires
  alignL : keysOf c.data = keysOf c.lastAccess
  nodup : (keysOf c.data).Nodup

/-- Keys that clients may use: the spec's data model restricts Index keys
to non-empty strings, so `Set` operations must carry a non-empty key. -/
def opKeysNonempty : Nat × Op → Bool
  | (_, .set k _ _) => !(k == "")
  | (_, .setI k _ _) => !(k == "")
  | _ => true

/-- A three-key example state for exercising `Get`: `"k"` never expires,
`"e"` expired at instant 3. -/
def getExample : Cache :=
  { data := [("k", "v"), ("e", "w")],
    expires := [("k", none), ("e", some 3)],
    lastAccess := [("k", 1), ("e", 1)],
    maxKeys := 0, log := [], enabled := true }

/-- The HTTP responses the `setHandler` distinguishes. -/
inductive HResp where
  | ok (msg : String)
  | badRequest (msg : String)
deriving DecidableEq, Repr

/-- The decoded JSON body of `POST /set` (`SetRequest` in
`cmd/server/main.go`); `ttl = none` when the field is omitted. -/
structure SetRequest where
  key : String
  value : String
  ttl : Option Int
deriving DecidableEq, Repr

/-- `setHandler` (transport layer) after JSON decoding: reject empty key
or value and negative TTL with 400 before touching the cache; otherwise
call `cache.Set` and answer 200. -/
def setHandler (req : SetRequest) (now : Nat) (c : Cache) : Cache × HResp :=
  if req.key = "" ∨ req.value = "" then
    (c, HResp.badRequest "Missing key or value")
  else
    match req.ttl with
    | some t =>
      if t < 0 then
        (c, HResp.badRequest "Invalid TTL (must be a non-negative integer in seconds)")
      else (cacheSet req.key req.value t now c, HResp.ok "OK key set")
    | none => (cacheSet req.key req.value 0 now c, HResp.ok "OK key set")

/-- Two embeddings of the *same* Go map state (the association lists are
permutations of each other) with a `last_access` tie at instant 5. -/
def tieCacheA : Cache :=
  { data := [("a", "x"), ("b", "y")],
    expires := [("a", none), ("b", none)],
    lastAccess := [("a", 5), ("b", 5)],
    maxKeys := 0, log := [], enabled := true }

/-- The same map contents as `tieCacheA`, in the opposite iteration
order. -/
def tieCacheB : Cache :=
  { data := [("b", "y"), ("a", "x")],
    expires := [("b", none), ("a", none)],
    lastAccess := [("b", 5), ("a", 5)],
    maxKeys := 0, log := [], enabled := true }

/-- The well-formed records among the scanned lines: decoded commands
whose op tag is one the replayer knows. -/
def wellFormedLine : AOFLine → Option AOFCommand
  | .record cmd => if cmd.op = "SET" ∨ cmd.op = "DEL" then some cmd else none
  | _ => none

/-- Application of one known-op record through the non-logging path. -/
def applyRecord (now : Nat) (c : Cache) (cmd : AOFCommand) : Cache :=
  if cmd.op = "SET" then setInternal cmd.key cmd.value cmd.ttl now c
  else if cmd.op = "DEL" then delInternal cmd.key c
  else c

/-- An example disk state with one AOF record and a published snapshot. -/
def diskExample : DiskState :=
  { aofRecords := [{ op := "SET", key := "a", value := "1", ttl := 0 }],
    snapFile := none, tmpFile := none }

/-- The operation shapes of the C1 scenario: public `Set` calls with a
non-empty key and no TTL, and public `Del` calls. -/
def setDelNoTTL : Nat × Op → Bool
  | (_, .set k _ ttl) => !(k == "") && (ttl == 0)
  | (_, .del _) => true
  | _ => false

/-- The simulation invariant tying a live (pre-crash) cache `L` to the
cache `R` obtained by replaying `L`'s AOF log. -/
structure C1Inv (L R : Cache) : Prop where
  wfL : Wf L
  wfR : Wf R
  noEmptyL : "" ∉ keysOf L.data
  lenL : 0 < L.maxKeys → L.data.length ≤ L.maxKeys
  noexpL : ∀ kv ∈ L.expires, kv.2 = none
  dataEq : R.data = L.data
  expEq : R.expires = L.expires
  enL : L.enabled = true
  maxEq : R.maxKeys = L.maxKeys

@[simp] theorem mapLookup_nil (k : String) : mapLookup k ([] : List (String × β)) = none := rfl

@[simp] theorem keysOf_nil : keysOf ([] : List (String × β)) = [] := rfl

@[simp] theorem keysOf_cons (kv : String × β) (l : List (String × β)) :
    keysOf (kv :: l) = kv.1 :: keysOf l := rfl

theorem mapLookup_isSome_iff (k : String) (l : List (String × β)) :
    (mapLookup k l).isSome = true ↔ k ∈ keysOf l := by
  induction l with
  | nil => simp [mapLookup]
  | cons kv rest ih =>
    by_cases h : kv.1 = k
    · simp [mapLookup, h]
    · simp [mapLookup, h, ih, Ne.symm h]

theorem mapLookup_eq_none_iff (k : String) (l : List (String × β)) :
    mapLookup k l = none ↔ k ∉ keysOf l := by
  rw [← mapLookup_isSome_iff]
  cases mapLookup k l <;> simp

/-- Looking a key up after filtering by a key-only predicate. -/
theorem mapLookup_filterKeys (q : String → Bool) (k : String) (l : List (String × β)) :
    mapLookup k (l.filter fun kv => q kv.1) =
      if q k then mapLookup k l else none := by
  induction l with
  | nil => simp [mapLookup]
  | cons kv rest ih =>
    by_cases h : kv.1 = k
    · subst h
      by_cases hq : q kv.1 <;> simp [mapLookup, hq, ih]
    · by_cases hq : q kv.1 <;> simp [mapLookup, hq, h, ih]

theorem mapLookup_mapInsert_self (k : String) (v : β) (l : List (String × β)) :
    mapLookup k (mapInsert k v l) = some v := by
  induction l with
  | nil => simp [mapInsert, mapLookup]
  | cons kv rest ih =>
    by_cases h : kv.1 = k <;> simp [mapInsert, mapLookup, h, ih]

theorem mapLookup_mapInsert_ne (k k' : String) (v : β) (l : List (String × β))
    (h : k' ≠ k) : mapLookup k' (mapInsert k v l) = mapLookup k' l := by
  have h' : k ≠ k' := Ne.symm h
  induction l with
  | nil => simp [mapInsert, mapLookup, h']
  | cons kv rest ih =>
    by_cases hk : kv.1 = k
    · subst hk
      simp [mapInsert, mapLookup, h', ih]
    · by_cases hk' : kv.1 = k' <;> simp [mapInsert, mapLookup, hk, hk', h, h', ih]

theorem mapLookup_mapErase_self (k : String) (l : List (String × β)) :
    mapLookup k (mapErase k l) = none := by
  have h := mapLookup_filterKeys (fun a => !(a == k)) k l
  simpa [mapErase] using h

theorem mapLookup_mapErase_ne (k k' : String) (l : List (String × β)) (h : k' ≠ k) :
    mapLookup k' (mapErase k l) = mapLookup k' l := by
  have hq := mapLookup_filterKeys (fun a => !(a == k)) k' l
  simpa [mapErase, h] using hq

theorem keysOf_mapInsert (k : String) (v : β) (l : List (String × β)) :
    keysOf (mapInsert k v l) =
      if k ∈ keysOf l then keysOf l else keysOf l ++ [k] := by
  induction l with
  | nil => simp [mapInsert]
  | cons kv rest ih =>
    by_cases h : kv.1 = k
    · subst h
      simp [mapInsert]
    · by_cases hm : k ∈ keysOf rest <;>
        simp [mapInsert, h, hm, ih, Ne.symm h]

theorem keysOf_filterKeys (q : String → Bool) (l : List (String × β)) :
    keysOf (l.filter fun kv => q kv.1) = (keysOf l).filter q := by
  induction l with
  | nil => simp
  | cons kv rest ih =>
    by_cases h : q kv.1 <;> simp [List.filter_cons, h, ih]

theorem keysOf_mapErase (k : String) (l : List (String × β)) :
    keysOf (mapErase k l) = (keysOf l).filter fun a => !(a == k) := by
  simpa [mapErase] using keysOf_filterKeys (fun a => !(a == k)) l

theorem length_mapInsert (k : String) (v : β) (l : List (String × β)) :
    (mapInsert k v l).length =
      if k ∈ keysOf l then l.length else l.length + 1 := by
  have h := keysOf_mapInsert k v l
  have h1 : (mapInsert k v l).length = (keysOf (mapInsert k v l)).length := by
    simp [keysOf]
  have h2 : l.length = (keysOf l).length := by simp [keysOf]
  rw [h1, h, h2]
  by_cases hm : k ∈ keysOf l <;> simp [hm]

theorem length_filter_le' (p : String × β → Bool) (l : List (String × β)) :
    (l.filter p).length ≤ l.length :=
  List.length_filter_le p l

/-- Erasing a present key from a list with no duplicate keys removes
exactly one element. -/
theorem length_mapErase_of_mem (k : String) (l : List (String × β))
    (hnd : (keysOf l).Nodup) (hm : k ∈ keysOf l) :
    (mapErase k l).length + 1 = l.length := by
  induction l with
  | nil => simp at hm
  | cons kv rest ih =>
    simp only [keysOf_cons, List.nodup_cons] at hnd
    rcases hnd with ⟨hh, hnd⟩
    by_cases h : kv.1 = k
    · subst h
      have hrest : mapErase kv.1 rest = rest := by
        unfold mapErase
        apply List.filter_eq_self.2
        intro a ha
        have hne : a.1 ≠ kv.1 := by
          intro hc
          exact hh (hc ▸ List.mem_map_of_mem Prod.fst ha)
        simp [hne]
      have hcons : mapErase kv.1 (kv :: rest) = mapErase kv.1 rest := by
        unfold mapErase
        rw [List.filter_cons]
        simp
      rw [hcons, hrest]
      simp
    · have hm' : k ∈ keysOf rest := by
        rcases (List.mem_cons).1 hm with h1 | h1
        · exact absurd h1.symm h
        · exact h1
      have := ih hnd hm'
      simp only [mapErase, List.filter_cons] at *
      simp only [h, beq_iff_eq, Bool.not_eq_true']
      simp only [show (kv.1 == k) = false by simp [h]]
      simpa [mapErase] using by omega

theorem nodup_keys_mapInsert (k : String) (v : β) (l : List (String × β))
    (hnd : (keysOf l).Nodup) : (keysOf (mapInsert k v l)).Nodup := by
  rw [keysOf_mapInsert]
  by_cases hm : k ∈ keysOf l
  · simpa [hm]
  · simpa [hm] using (List.nodup_append.2 ⟨hnd, List.nodup_singleton k, by
      intro a ha hb
      simp at hb
      subst hb
      exact hm ha⟩)

theorem nodup_keys_filterKeys (q : String → Bool) (l : List (String × β))
    (hnd : (keysOf l).Nodup) : (keysOf (l.filter fun kv => q kv.1)).Nodup := by
  rw [keysOf_filterKeys]
  exact hnd.filter q

theorem nodup_keys_mapErase (k : String) (l : List (String × β))
    (hnd : (keysOf l).Nodup) : (keysOf (mapErase k l)).Nodup := by
  unfold mapErase
  exact nodup_keys_filterKeys (fun a => !(a == k)) l hnd

/-! ## Basic facts about the operations -/

@[simp] theorem logSet_data (key value : String) (ttl : Int) (c : Cache) :
    (logSet key value ttl c).data = c.data := by
  unfold logSet; split <;> rfl

@[simp] theorem logSet_expires (key value : String) (ttl : Int) (c : Cache) :
    (logSet key value ttl c).expires = c.expires := by
  unfold logSet; split <;> rfl

@[simp] theorem logSet_lastAccess (key value : String) (ttl : Int) (c : Cache) :
    (logSet key value ttl c).lastAccess = c.lastAccess := by
  unfold logSet; split <;> rfl

@[simp] theorem logSet_maxKeys (key value : String) (ttl : Int) (c : Cache) :
    (logSet key value ttl c).maxKeys = c.maxKeys := by
  unfold logSet; split <;> rfl

@[simp] theorem logSet_enabled (key value : String) (ttl : Int) (c : Cache) :
    (logSet key value ttl c).enabled = c.enabled := by
  unfold logSet; split <;> rfl

@[simp] theorem logDel_enabled (key : String) (c : Cache) :
    (logDel key c).enabled = c.enabled := by
  unfold logDel; split <;> rfl

@[simp] theorem logDel_data (key : String) (c : Cache) :
    (logDel key c).data = c.data := by
  unfold logDel; split <;> rfl

@[simp] theorem logDel_expires (key : String) (c : Cache) :
    (logDel key c).expires = c.expires := by
  unfold logDel; split <;> rfl

@[simp] theorem logDel_lastAccess (key : String) (c : Cache) :
    (logDel key c).lastAccess = c.lastAccess := by
  unfold logDel; split <;> rfl

@[simp] theorem logDel_maxKeys (key : String) (c : Cache) :
    (logDel key c).maxKeys = c.maxKeys := by
  unfold logDel; split <;> rfl

@[simp] theorem cleanup_maxKeys (now : Nat) (c : Cache) :
    (cleanupExpiredLocked now c).maxKeys = c.maxKeys := rfl

@[simp] theorem cleanup_log (now : Nat) (c : Cache) :
    (cleanupExpiredLocked now c).log = c.log := rfl

@[simp] theorem cleanup_enabled (now : Nat) (c : Cache) :
    (cleanupExpiredLocked now c).enabled = c.enabled := rfl

@[simp] theorem evictLRU_maxKeys (now : Nat) (c : Cache) :
    (evictLRU now c).maxKeys = c.maxKeys := by
  simp only [evictLRU]
  split
  · rfl
  · split <;> simp

@[simp] theorem setInternal_maxKeys (key value : String) (ttl : Int) (now : Nat) (c : Cache) :
    (setInternal key value ttl now c).maxKeys = c.maxKeys := by
  simp only [setInternal]
  split <;> simp

@[simp] theorem evictLRU_enabled (now : Nat) (c : Cache) :
    (evictLRU now c).enabled = c.enabled := by
  simp only [evictLRU]
  split
  · rfl
  · split <;> simp

@[simp] theorem setInternal_enabled (key value : String) (ttl : Int) (now : Nat) (c : Cache) :
    (setInternal key value ttl now c).enabled = c.enabled := by
  simp only [setInternal]
  split <;> simp

@[simp] theorem cacheSet_maxKeys (key value : String) (ttl : Int) (now : Nat) (c : Cache) :
    (cacheSet key value ttl now c).maxKeys = c.maxKeys := by
  unfold cacheSet
  simp

@[simp] theorem cacheSet_enabled (key value : String) (ttl : Int) (now : Nat) (c : Cache) :
    (cacheSet key value ttl now c).enabled = c.enabled := by
  unfold cacheSet
  simp

theorem logSet_log_of_enabled (key value : String) (ttl : Int) (c : Cache)
    (hen : c.enabled = true) :
    (logSet key value ttl c).log =
      c.log ++ [{ op := "SET", key := key, value := value,
                  ttl := if 0 < ttl then ttl else 0 }] := by
  simp [logSet, hen]

@[simp] theorem stepOp_maxKeys (c : Cache) (t : Nat × Op) :
    (stepOp c t).maxKeys = c.maxKeys := by
  unfold stepOp
  rcases t with ⟨now, op⟩
  cases op <;> simp [cacheSet, cacheGet, cacheDel, cacheCleanup, delInternal]
  case get k =>
    cases h : mapLookup k c.data <;> simp [h]
    split <;> simp

theorem runOps_maxKeys (c : Cache) (ops : List (Nat × Op)) :
    (runOps c ops).maxKeys = c.maxKeys := by
  induction ops generalizing c with
  | nil => rfl
  | cons t rest ih => simpa [runOps, List.foldl_cons] using ih (stepOp c t)

/-! ## The `findLRULoop` characterization -/

theorem findLRULoop_eq_none_iff (isExp : String → Bool) (l : List (String × Nat)) :
    ∀ best, findLRULoop isExp l best = none ↔
      best = none ∧ ∀ kt ∈ l, isExp kt.1 = true := by
  induction l with
  | nil => intro best; simp [findLRULoop]
  | cons kt rest ih =>
    rcases kt with ⟨k, t⟩
    intro best
    by_cases hk : isExp k
    · simp only [findLRULoop, hk, if_pos]
      rw [ih best]
      constructor
      · rintro ⟨h1, h2⟩
        refine ⟨h1, ?_⟩
        intro kt hkt
        rcases List.mem_cons.1 hkt with h | h
        · subst h; exact hk
        · exact h2 kt h
      · rintro ⟨h1, h2⟩
        exact ⟨h1, fun kt hkt => h2 kt (List.mem_cons_of_mem _ hkt)⟩
    · simp only [findLRULoop, hk, if_neg, Bool.not_eq_true]
      cases best with
      | none =>
        simp only []
        rw [ih (some (k, t))]
        constructor
        · rintro ⟨h1, _⟩; exact absurd h1 (by simp)
        · rintro ⟨_, h2⟩
          have := h2 (k, t) (List.mem_cons_self _ _)
          simp [hk] at this
      | some b =>
        rcases b with ⟨bk, bt⟩
        by_cases hlt : t < bt
        · dsimp only
          rw [if_pos hlt, ih (some (k, t))]
          constructor
          · rintro ⟨h1, _⟩; exact absurd h1 (by simp)
          · rintro ⟨h1, _⟩; exact absurd h1 (by simp)
        · dsimp only
          rw [if_neg hlt, ih (some (bk, bt))]
          constructor
          · rintro ⟨h1, _⟩; exact absurd h1 (by simp)
          · rintro ⟨h1, _⟩; exact absurd h1 (by simp)

theorem findLRULoop_mem (isExp : String → Bool) (l : List (String × Nat)) :
    ∀ best r, findLRULoop isExp l best = some r →
      (r ∈ l ∧ isExp r.1 = false) ∨ best = some r := by
  induction l with
  | nil => intro best r h; right; simpa [findLRULoop] using h
  | cons kt rest ih =>
    rcases kt with ⟨k, t⟩
    intro best r h
    by_cases hk : isExp k
    · simp only [findLRULoop, hk, if_pos] at h
      rcases ih best r h with ⟨hm, he⟩ | hb
      · exact Or.inl ⟨List.mem_cons_of_mem _ hm, he⟩
      · exact Or.inr hb
    · simp only [findLRULoop, hk, if_neg, Bool.not_eq_true] at h
      cases best with
      | none =>
        rcases ih (some (k, t)) r h with ⟨hm, he⟩ | hb
        · exact Or.inl ⟨List.mem_cons_of_mem _ hm, he⟩
        · left
          refine ⟨?_, ?_⟩
          · rw [show r = (k, t) by simpa using hb.symm]
            exact List.mem_cons_self _ _
          · rw [show r = (k, t) by simpa using hb.symm]
            simpa using hk
      | some b =>
        rcases b with ⟨bk, bt⟩
        by_cases hlt : t < bt
        · simp only [hlt, if_pos] at h
          rcases ih (some (k, t)) r h with ⟨hm, he⟩ | hb
          · exact Or.inl ⟨List.mem_cons_of_mem _ hm, he⟩
          · left
            refine ⟨?_, ?_⟩
            · rw [show r = (k, t) by simpa using hb.symm]
              exact List.mem_cons_self _ _
            · rw [show r = (k, t) by simpa using hb.symm]
              simpa using hk
        · simp only [hlt, if_neg] at h
          rcases ih (some (bk, bt)) r h with ⟨hm, he⟩ | hb
          · exact Or.inl ⟨List.mem_cons_of_mem _ hm, he⟩
          · exact Or.inr hb

theorem findLRULoop_min (isExp : String → Bool) (l : List (String × Nat)) :
    ∀ best r, findLRULoop isExp l best = some r →
      (∀ kt ∈ l, isExp kt.1 = false → r.2 ≤ kt.2) ∧
      (∀ b, best = some b → r.2 ≤ b.2) := by
  induction l with
  | nil =>
    intro best r h
    simp only [findLRULoop] at h
    refine ⟨by simp, ?_⟩
    intro b hb
    rw [hb] at h
    simp at h
    rw [h]
  | cons kt rest ih =>
    rcases kt with ⟨k, t⟩
    intro best r h
    by_cases hk : isExp k
    · simp only [findLRULoop, hk, if_pos] at h
      rcases ih best r h with ⟨h1, h2⟩
      refine ⟨?_, h2⟩
      intro kt hkt hexp
      rcases List.mem_cons.1 hkt with hh | hh
      · exact absurd (hh ▸ hexp) (by simp [hk])
      · exact h1 kt hh hexp
    · simp only [findLRULoop, hk, if_neg, Bool.not_eq_true] at h
      cases best with
      | none =>
        rcases ih (some (k, t)) r h with ⟨h1, h2⟩
        have hrt : r.2 ≤ t := h2 (k, t) rfl
        refine ⟨?_, by simp⟩
        intro kt hkt hexp
        rcases List.mem_cons.1 hkt with hh | hh
        · rw [hh]; exact hrt
        · exact h1 kt hh hexp
      | some b =>
        rcases b with ⟨bk, bt⟩
        by_cases hlt : t < bt
        · simp only [hlt, if_pos] at h
          rcases ih (some (k, t)) r h with ⟨h1, h2⟩
          have hrt : r.2 ≤ t := h2 (k, t) rfl
          refine ⟨?_, ?_⟩
          · intro kt hkt hexp
            rcases List.mem_cons.1 hkt with hh | hh
            · rw [hh]; exact hrt
            · exact h1 kt hh hexp
          · intro b hb
            have heq : (bk, bt) = b := by simpa using hb
            rw [← heq]
            exact le_trans hrt (le_of_lt hlt)
        · simp only [hlt, if_neg] at h
          rcases ih (some (bk, bt)) r h with ⟨h1, h2⟩
          have hrb : r.2 ≤ bt := h2 (bk, bt) rfl
          refine ⟨?_, ?_⟩
          · intro kt hkt hexp
            rcases List.mem_cons.1 hkt with hh | hh
            · rw [hh]
              exact le_trans hrb (not_lt.1 hlt)
            · exact h1 kt hh hexp
          · intro b hb
            have heq : (bk, bt) = b := by simpa using hb
            rw [← heq]
            exact hrb

/-! ## Well-formedness: the three maps stay in lockstep -/

theorem wf_initCache (maxKeys : Nat) : Wf (initCache maxKeys) :=
  ⟨rfl, rfl, List.nodup_nil⟩

theorem wf_enabled (c : Cache) (e : Bool) (h : Wf c) :
    Wf { c with enabled := e } :=
  ⟨h.alignE, h.alignL, h.nodup⟩

/-- Writing the same key into all three maps preserves well-formedness. -/
theorem wf_insertAll (key value : String) (e : Option Nat) (t : Nat) (c : Cache)
    (h : Wf c) :
    Wf { c with data := mapInsert key value c.data,
                expires := mapInsert key e c.expires,
                lastAccess := mapInsert key t c.lastAccess } := by
  obtain ⟨hE, hL, hnd⟩ := h
  refine ⟨?_, ?_, ?_⟩
  · show keysOf (mapInsert key value c.data) = keysOf (mapInsert key e c.expires)
    rw [keysOf_mapInsert, keysOf_mapInsert, hE]
  · show keysOf (mapInsert key value c.data) = keysOf (mapInsert key t c.lastAccess)
    rw [keysOf_mapInsert, keysOf_mapInsert, hL]
  · exact nodup_keys_mapInsert key value c.data hnd

/-- Deleting the same key from all three maps preserves well-formedness. -/
theorem wf_eraseAll (key : String) (c : Cache) (h : Wf c) :
    Wf { c with data := mapErase key c.data,
                expires := mapErase key c.expires,
                lastAccess := mapErase key c.lastAccess } := by
  obtain ⟨hE, hL, hnd⟩ := h
  refine ⟨?_, ?_, ?_⟩
  · show keysOf (mapErase key c.data) = keysOf (mapErase key c.expires)
    rw [keysOf_mapErase, keysOf_mapErase, hE]
  · show keysOf (mapErase key c.data) = keysOf (mapErase key c.lastAccess)
    rw [keysOf_mapErase, keysOf_mapErase, hL]
  · exact nodup_keys_mapErase key c.data hnd

theorem wf_cleanupExpiredLocked (now : Nat) (c : Cache) (h : Wf c) :
    Wf (cleanupExpiredLocked now c) := by
  obtain ⟨hE, hL, hnd⟩ := h
  refine ⟨?_, ?_, ?_⟩
  · show keysOf (c.data.filter fun kv => liveKey c.expires now kv.1) =
      keysOf (c.expires.filter fun kv => liveKey c.expires now kv.1)
    rw [keysOf_filterKeys (liveKey c.expires now) c.data,
        keysOf_filterKeys (liveKey c.expires now) c.expires, hE]
  · show keysOf (c.data.filter fun kv => liveKey c.expires now kv.1) =
      keysOf (c.lastAccess.filter fun kv => liveKey c.expires now kv.1)
    rw [keysOf_filterKeys (liveKey c.expires now) c.data,
        keysOf_filterKeys (liveKey c.expires now) c.lastAccess, hL]
  · show (keysOf (c.data.filter fun kv => liveKey c.expires now kv.1)).Nodup
    rw [keysOf_filterKeys (liveKey c.expires now) c.data]
    exact hnd.filter _

theorem wf_logSet (key value : String) (ttl : Int) (c : Cache) (h : Wf c) :
    Wf (logSet key value ttl c) := by
  unfold logSet
  split
  · exact ⟨h.alignE, h.alignL, h.nodup⟩
  · exact h

theorem wf_logDel (key : String) (c : Cache) (h : Wf c) :
    Wf (logDel key c) := by
  unfold logDel
  split
  · exact ⟨h.alignE, h.alignL, h.nodup⟩
  · exact h

theorem wf_evictLRU (now : Nat) (c : Cache) (h : Wf c) : Wf (evictLRU now c) := by
  simp only [evictLRU]
  split
  · exact h
  · split
    · exact h
    · exact wf_logDel _ _ (wf_eraseAll _ c h)

theorem wf_setInternal (key value : String) (ttl : Int) (now : Nat) (c : Cache)
    (h : Wf c) : Wf (setInternal key value ttl now c) := by
  have h1 := wf_cleanupExpiredLocked now c h
  simp only [setInternal]
  split
  · exact wf_insertAll key value _ now _ (wf_evictLRU now _ h1)
  · exact wf_insertAll key value _ now _ h1

theorem wf_cacheSet (key value : String) (ttl : Int) (now : Nat) (c : Cache)
    (h : Wf c) : Wf (cacheSet key value ttl now c) :=
  wf_logSet _ _ _ _ (wf_setInternal key value ttl now c h)

theorem wf_cacheGet (key : String) (now : Nat) (c : Cache) (h : Wf c) :
    Wf (cacheGet key now c).1 := by
  unfold cacheGet
  cases hm : mapLookup key c.data with
  | none => exact h
  | some v =>
    dsimp only
    by_cases hexp : keyExpiredIn c.expires now key = true
    · rw [if_pos hexp]
      exact wf_eraseAll key c h
    · rw [if_neg hexp]
      obtain ⟨hE, hL, hnd⟩ := h
      have hmem : key ∈ keysOf c.data := by
        rw [← mapLookup_isSome_iff]
        simp [hm]
      refine ⟨hE, ?_, hnd⟩
      show keysOf c.data = keysOf (mapInsert key now c.lastAccess)
      rw [keysOf_mapInsert, if_pos (hL ▸ hmem), hL]

theorem wf_delInternal (key : String) (c : Cache) (h : Wf c) :
    Wf (delInternal key c) :=
  wf_eraseAll key c h

theorem wf_cacheDel (key : String) (c : Cache) (h : Wf c) :
    Wf (cacheDel key c) :=
  wf_logDel _ _ (wf_delInternal key c h)

theorem wf_stepOp (c : Cache) (t : Nat × Op) (h : Wf c) : Wf (stepOp c t) := by
  rcases t with ⟨now, op⟩
  cases op with
  | set k v ttl => exact wf_cacheSet k v ttl now c h
  | get k => exact wf_cacheGet k now c h
  | del k => exact wf_cacheDel k c h
  | cleanup => exact wf_cleanupExpiredLocked now c h
  | setI k v ttl => exact wf_setInternal k v ttl now c h
  | delI k => exact wf_delInternal k c h

theorem wf_runOps (c : Cache) (ops : List (Nat × Op)) (h : Wf c) :
    Wf (runOps c ops) := by
  induction ops generalizing c with
  | nil => exact h
  | cons t rest ih => exact ih (stepOp c t) (wf_stepOp c t h)

theorem wf_replayLine (now : Nat) (c : Cache) (l : AOFLine) (h : Wf c) :
    Wf (replayLine now c l) := by
  cases l with
  | blank => exact h
  | malformed => exact h
  | record cmd =>
    simp only [replayLine]
    split
    · exact wf_setInternal _ _ _ now c h
    · split
      · exact wf_delInternal _ c h
      · exact h

theorem wf_replay (now : Nat) (c : Cache) (lines : List AOFLine) (h : Wf c) :
    Wf (replay now c lines) := by
  induction lines generalizing c with
  | nil => exact h
  | cons l rest ih => exact ih (replayLine now c l) (wf_replayLine now c l h)

theorem wf_loadSnapshot_fold (now : Nat) (entries : List SnapEntry) :
    ∀ acc : Cache, Wf acc →
      Wf (entries.foldl
        (fun acc e =>
          if expVal now e.expiresAt then acc
          else
            { acc with data := mapInsert e.key e.value acc.data,
                       expires := mapInsert e.key e.expiresAt acc.expires,
                       lastAccess := mapInsert e.key now acc.lastAccess })
        acc) := by
  induction entries with
  | nil => intro acc h; exact h
  | cons e rest ih =>
    intro acc h
    simp only [List.foldl_cons]
    apply ih
    split
    · exact h
    · exact wf_insertAll e.key e.value e.expiresAt now acc h

theorem wf_loadSnapshotState (snap : Snapshot) (now : Nat) (c : Cache) :
    Wf (loadSnapshotState snap now c) := by
  unfold loadSnapshotState
  exact wf_loadSnapshot_fold now snap.entries _ ⟨rfl, rfl, List.nodup_nil⟩

theorem wf_startupState (snap : Option Snapshot) (lines : List AOFLine)
    (loadNow replayNow maxKeys : Nat) :
    Wf (startupState snap lines loadNow replayNow maxKeys) := by
  unfold startupState
  apply wf_enabled
  apply wf_replay
  apply wf_enabled
  cases snap with
  | none => exact wf_initCache maxKeys
  | some s => exact wf_loadSnapshotState s loadNow (initCache maxKeys)

/-- **C9.** After every public operation (`Set`, `Get`, `Del`, `Cleanup`)
and every recovery step (snapshot load in `startupState`, AOF replay via
`setInternal`/`delInternal`, whether replayed from the AOF file or issued
directly), the three maps `data`, `expires`, and `lastAccess` have exactly
the same key sequence: a key has a value iff it has an expiry entry
(possibly the zero-time sentinel `none`) iff it has a last-access entry. -/
theorem C9_maps_share_key_set (snap : Option Snapshot) (lines : List AOFLine)
    (loadNow replayNow maxKeys : Nat) (ops : List (Nat × Op)) :
    keysOf (runOps (startupState snap lines loadNow replayNow maxKeys) ops).data =
        keysOf (runOps (startupState snap lines loadNow replayNow maxKeys) ops).expires ∧
      keysOf (runOps (startupState snap lines loadNow replayNow maxKeys) ops).data =
        keysOf (runOps (startupState snap lines loadNow replayNow maxKeys) ops).lastAccess := by
  have h := wf_runOps _ ops (wf_startupState snap lines loadNow replayNow maxKeys)
  exact ⟨h.alignE, h.alignL⟩

/-! ## Capacity accounting -/

/-- Keys surviving `cleanupExpiredLocked` are still live with respect to
the swept expiry map. -/
theorem liveKey_cleanup (now : Nat) (c : Cache) (k : String)
    (h : liveKey c.expires now k = true) :
    liveKey (cleanupExpiredLocked now c).expires now k = true := by
  have hlook : mapLookup k (cleanupExpiredLocked now c).expires = mapLookup k c.expires := by
    show mapLookup k (c.expires.filter fun kv => liveKey c.expires now kv.1) =
      mapLookup k c.expires
    rw [mapLookup_filterKeys (liveKey c.expires now) k c.expires, if_pos h]
  unfold liveKey keyExpiredIn at h ⊢
  rw [hlook]
  exact h

/-- Immediately after the sweep, every remaining key counts as valid, so
`countValidKeys` is just the size of `data`. -/
theorem countValid_cleanup (now : Nat) (c : Cache) :
    countValidKeys (cleanupExpiredLocked now c) now =
      (cleanupExpiredLocked now c).data.length := by
  unfold countValidKeys
  apply congrArg List.length
  apply List.filter_eq_self.2
  intro kv hkv
  have h1 : liveKey c.expires now kv.1 = true := (List.mem_filter.1 hkv).2
  exact liveKey_cleanup now c kv.1 h1

theorem countValid_le_length (c : Cache) (now : Nat) :
    countValidKeys c now ≤ c.data.length :=
  List.length_filter_le _ c.data

theorem cleanup_data_keys (now : Nat) (c : Cache) :
    keysOf (cleanupExpiredLocked now c).data =
      (keysOf c.data).filter (liveKey c.expires now) :=
  keysOf_filterKeys (liveKey c.expires now) c.data

theorem cleanup_length_le (now : Nat) (c : Cache) :
    (cleanupExpiredLocked now c).data.length ≤ c.data.length :=
  List.length_filter_le _ c.data

/-- Dropping a present key during filtering strictly shrinks the list. -/
theorem length_filter_lt_of_dropped (q : String → Bool) (ks : List String)
    (k : String) (hmem : k ∈ ks) (hout : k ∉ ks.filter q) :
    (ks.filter q).length < ks.length := by
  induction ks with
  | nil => simp at hmem
  | cons a rest ih =>
    by_cases ha : q a = true
    · rw [List.filter_cons_of_pos ha] at hout ⊢
      have hak : a ≠ k := by
        intro hc
        exact hout (hc ▸ List.mem_cons_self a _)
      have hmem' : k ∈ rest := by
        rcases List.mem_cons.1 hmem with h | h
        · exact absurd h.symm hak
        · exact h
      have hout' : k ∉ rest.filter q := fun hc => hout (List.mem_cons_of_mem _ hc)
      simpa using Nat.succ_lt_succ (ih hmem' hout')
    · rw [List.filter_cons_of_neg (by simpa using ha)] at hout ⊢
      calc (rest.filter q).length ≤ rest.length := List.length_filter_le _ _
        _ < (a :: rest).length := by simp

/-- The key set of `evictLRU`'s result is contained in the original key
set. -/
theorem evict_data_keys_subset (now : Nat) (c : Cache) (k : String)
    (h : k ∈ keysOf (evictLRU now c).data) : k ∈ keysOf c.data := by
  simp only [evictLRU] at h
  by_cases h1 : c.lastAccess.isEmpty = true
  · rwa [if_pos h1] at h
  · rw [if_neg h1] at h
    by_cases h2 : findLRU now c = ""
    · rwa [if_pos h2] at h
    · rw [if_neg h2] at h
      simp only [logDel_data] at h
      rw [show keysOf (mapErase (findLRU now c) c.data) =
        (keysOf c.data).filter (fun a => !(a == findLRU now c)) from
          keysOf_mapErase _ _] at h
      exact (List.mem_filter.1 h).1

/-- When the cache is nonempty, every tracked key is unexpired, and no key
is the empty string, `evictLRU` removes exactly one entry. -/
theorem evict_length (now : Nat) (c : Cache) (hwf : Wf c)
    (hne : c.data ≠ [])
    (hlive : ∀ k ∈ keysOf c.lastAccess, isExpired c now k = false)
    (hkeys : "" ∉ keysOf c.data) :
    (evictLRU now c).data.length + 1 = c.data.length := by
  have hlA : keysOf c.data = keysOf c.lastAccess := hwf.alignL
  have hlane : c.lastAccess ≠ [] := by
    intro hc
    apply hne
    have : keysOf c.data = [] := by rw [hlA, hc]; rfl
    cases hd : c.data with
    | nil => rfl
    | cons kv rest => rw [hd] at this; simp [keysOf] at this
  have hE : c.lastAccess.isEmpty = false := by
    cases hca : c.lastAccess with
    | nil => exact absurd hca hlane
    | cons kv rest => rfl
  -- the loop finds some entry
  obtain ⟨kt0, hkt0⟩ : ∃ kt, kt ∈ c.lastAccess := by
    cases hca : c.lastAccess with
    | nil => exact absurd hca hlane
    | cons kv rest => exact ⟨kv, hca ▸ List.mem_cons_self kv rest⟩
  have hkt0live : isExpired c now kt0.1 = false :=
    hlive kt0.1 (List.mem_map_of_mem Prod.fst hkt0)
  cases hres : findLRULoop (fun k => isExpired c now k) c.lastAccess none with
  | none =>
    have := (findLRULoop_eq_none_iff (fun k => isExpired c now k) c.lastAccess none).1 hres
    have hbad := this.2 kt0 hkt0
    rw [hkt0live] at hbad
    exact absurd hbad (by simp)
  | some r =>
    have hmem := findLRULoop_mem (fun k => isExpired c now k) c.lastAccess none r hres
    rcases hmem with ⟨hrmem, _⟩ | hbad
    · have hrkey : r.1 ∈ keysOf c.data := by
        rw [hlA]
        exact List.mem_map_of_mem Prod.fst hrmem
      have hrne : r.1 ≠ "" := fun hc => hkeys (hc ▸ hrkey)
      have hfind : findLRU now c = r.1 := by
        unfold findLRU isExpired
        rw [show (fun k => keyExpiredIn c.expires now k) =
              (fun k => isExpired c now k) from rfl, hres]
      simp only [evictLRU]
      rw [if_neg (by simp [hE]), hfind, if_neg hrne]
      simp only [logDel_data]
      exact length_mapErase_of_mem r.1 c.data hwf.nodup hrkey
    · simp at hbad

/-- After the sweep inside `Set`/`setInternal`, every surviving tracked
key is unexpired. -/
theorem cleanup_all_live (now : Nat) (c : Cache) (hwf : Wf c) :
    ∀ k ∈ keysOf (cleanupExpiredLocked now c).lastAccess,
      isExpired (cleanupExpiredLocked now c) now k = false := by
  intro k hk
  have hwf1 := wf_cleanupExpiredLocked now c hwf
  have hkd : k ∈ keysOf (cleanupExpiredLocked now c).data := by
    rw [hwf1.alignL]; exact hk
  rw [cleanup_data_keys] at hkd
  have hliveOld : liveKey c.expires now k = true := (List.mem_filter.1 hkd).2
  have hliveNew := liveKey_cleanup now c k hliveOld
  unfold liveKey at hliveNew
  unfold isExpired
  simpa using hliveNew

/-- The capacity step of `Set`/`setInternal` keeps `data` at or below
`maxKeys` and never introduces an empty key (given the spec's data-model
restriction that client keys are non-empty). -/
theorem setInternal_bounded (key value : String) (ttl : Int) (now : Nat) (c : Cache)
    (hwf : Wf c) (hkey : key ≠ "") (hne : "" ∉ keysOf c.data)
    (hmax : 0 < c.maxKeys) (hlen : c.data.length ≤ c.maxKeys) :
    "" ∉ keysOf (setInternal key value ttl now c).data ∧
      (setInternal key value ttl now c).data.length ≤ c.maxKeys := by
  have hwf1 : Wf (cleanupExpiredLocked now c) := wf_cleanupExpiredLocked now c hwf
  have hne1 : "" ∉ keysOf (cleanupExpiredLocked now c).data := by
    rw [cleanup_data_keys]
    intro hc
    exact hne (List.mem_filter.1 hc).1
  have hlen1 : (cleanupExpiredLocked now c).data.length ≤ c.maxKeys :=
    le_trans (cleanup_length_le now c) hlen
  have hlenkeys : ∀ d : Cache, d.data.length = (keysOf d.data).length := by
    intro d; simp [keysOf]
  simp only [setInternal]
  by_cases hcond : (decide (0 < (cleanupExpiredLocked now c).maxKeys) && !(hasKey c key) &&
      decide ((cleanupExpiredLocked now c).maxKeys ≤
        countValidKeys (cleanupExpiredLocked now c) now)) = true
  · rw [if_pos hcond]
    simp only [Bool.and_eq_true, decide_eq_true_eq, Bool.not_eq_true'] at hcond
    obtain ⟨⟨-, hB⟩, hC⟩ := hcond
    rw [cleanup_maxKeys] at hC
    rw [countValid_cleanup] at hC
    have hlen1eq : (cleanupExpiredLocked now c).data.length = c.maxKeys :=
      le_antisymm hlen1 hC
    have hnonnil : (cleanupExpiredLocked now c).data ≠ [] := by
      intro hc
      rw [hc] at hlen1eq
      simp at hlen1eq
      omega
    have hev := evict_length now (cleanupExpiredLocked now c) hwf1 hnonnil
      (cleanup_all_live now c hwf) hne1
    have hkeyOut : key ∉ keysOf (cleanupExpiredLocked now c).data := by
      have h0 : mapLookup key c.data = none := by
        unfold hasKey at hB
        cases hml : mapLookup key c.data with
        | none => rfl
        | some v => rw [hml] at hB; simp at hB
      have h1 : key ∉ keysOf c.data := (mapLookup_eq_none_iff key c.data).1 h0
      rw [cleanup_data_keys]
      intro hc
      exact h1 (List.mem_filter.1 hc).1
    have hkeyOutE : key ∉ keysOf (evictLRU now (cleanupExpiredLocked now c)).data :=
      fun hc => hkeyOut (evict_data_keys_subset now _ key hc)
    constructor
    · rw [keysOf_mapInsert, if_neg hkeyOutE]
      intro hc
      rcases List.mem_append.1 hc with h | h
      · exact hne1 (evict_data_keys_subset now _ "" h)
      · simp at h
        exact hkey h.symm
    · rw [length_mapInsert, if_neg hkeyOutE]
      omega
  · rw [if_neg hcond]
    by_cases hqmem : key ∈ keysOf (cleanupExpiredLocked now c).data
    · constructor
      · rw [keysOf_mapInsert, if_pos hqmem]
        exact hne1
      · rw [length_mapInsert, if_pos hqmem]
        exact hlen1
    · have hlt : (cleanupExpiredLocked now c).data.length < c.maxKeys := by
        by_cases hB : hasKey c key = true
        · have hkin : key ∈ keysOf c.data := by
            rw [← mapLookup_isSome_iff]
            unfold hasKey at hB
            exact hB
          have hdrop : key ∉ (keysOf c.data).filter (liveKey c.expires now) := by
            rw [← cleanup_data_keys]
            exact hqmem
          have hlt' := length_filter_lt_of_dropped (liveKey c.expires now)
            (keysOf c.data) key hkin hdrop
          have e1 := hlenkeys (cleanupExpiredLocked now c)
          have e2 := hlenkeys c
          rw [cleanup_data_keys] at e1
          omega
        · have hBf : hasKey c key = false := by
            cases h' : hasKey c key
            · rfl
            · exact absurd h' hB
          have hC : ¬ (c.maxKeys ≤ countValidKeys (cleanupExpiredLocked now c) now) := by
            intro hc
            apply hcond
            simp [hmax, hBf, hc]
          rw [countValid_cleanup] at hC
          omega
      constructor
      · rw [keysOf_mapInsert, if_neg hqmem]
        intro hc
        rcases List.mem_append.1 hc with h | h
        · exact hne1 h
        · simp at h
          exact hkey h.symm
      · rw [length_mapInsert, if_neg hqmem]
        omega

theorem mapErase_keys_subset (k a : String) {β : Type u} (l : List (String × β))
    (h : a ∈ keysOf (mapErase k l)) : a ∈ keysOf l := by
  rw [keysOf_mapErase] at h
  exact (List.mem_filter.1 h).1

theorem mapErase_length_le (k : String) {β : Type u} (l : List (String × β)) :
    (mapErase k l).length ≤ l.length :=
  List.length_filter_le _ l

/-- `Get` either leaves `data` unchanged or erases the requested key. -/
theorem cacheGet_data_cases (key : String) (now : Nat) (c : Cache) :
    (cacheGet key now c).1.data = c.data ∨
      (cacheGet key now c).1.data = mapErase key c.data := by
  unfold cacheGet
  cases hm : mapLookup key c.data with
  | none => exact Or.inl rfl
  | some v =>
    dsimp only
    by_cases hexp : keyExpiredIn c.expires now key = true
    · rw [if_pos hexp]
      exact Or.inr rfl
    · rw [if_neg hexp]
      exact Or.inl rfl

@[simp] theorem cacheDel_data (key : String) (c : Cache) :
    (cacheDel key c).data = mapErase key c.data := by
  simp [cacheDel, delInternal]

theorem bounded_stepOp (c : Cache) (t : Nat × Op) (hwf : Wf c)
    (hne : "" ∉ keysOf c.data) (hmax : 0 < c.maxKeys)
    (hlen : c.data.length ≤ c.maxKeys) (hop : opKeysNonempty t = true) :
    "" ∉ keysOf (stepOp c t).data ∧ (stepOp c t).data.length ≤ c.maxKeys := by
  rcases t with ⟨now, op⟩
  cases op with
  | set k v ttl =>
    have hk : k ≠ "" := by simpa [opKeysNonempty] using hop
    have h := setInternal_bounded k v ttl now c hwf hk hne hmax hlen
    simpa [stepOp, cacheSet] using h
  | setI k v ttl =>
    have hk : k ≠ "" := by simpa [opKeysNonempty] using hop
    exact setInternal_bounded k v ttl now c hwf hk hne hmax hlen
  | get k =>
    show "" ∉ keysOf (cacheGet k now c).1.data ∧
      (cacheGet k now c).1.data.length ≤ c.maxKeys
    rcases cacheGet_data_cases k now c with h | h <;> rw [h]
    · exact ⟨hne, hlen⟩
    · exact ⟨fun hc => hne (mapErase_keys_subset k "" c.data hc),
        le_trans (mapErase_length_le k c.data) hlen⟩
  | del k =>
    show "" ∉ keysOf (cacheDel k c).data ∧ (cacheDel k c).data.length ≤ c.maxKeys
    rw [cacheDel_data]
    exact ⟨fun hc => hne (mapErase_keys_subset k "" c.data hc),
      le_trans (mapErase_length_le k c.data) hlen⟩
  | cleanup =>
    show "" ∉ keysOf (cleanupExpiredLocked now c).data ∧
      (cleanupExpiredLocked now c).data.length ≤ c.maxKeys
    constructor
    · rw [cleanup_data_keys]
      intro hc
      exact hne (List.mem_filter.1 hc).1
    · exact le_trans (cleanup_length_le now c) hlen
  | delI k =>
    show "" ∉ keysOf (delInternal k c).data ∧
      (delInternal k c).data.length ≤ c.maxKeys
    exact ⟨fun hc => hne (mapErase_keys_subset k "" c.data hc),
      le_trans (mapErase_length_le k c.data) hlen⟩

theorem bounded_runOps (c : Cache) (ops : List (Nat × Op)) (hwf : Wf c)
    (hne : "" ∉ keysOf c.data) (hmax : 0 < c.maxKeys)
    (hlen : c.data.length ≤ c.maxKeys) (hops : ops.all opKeysNonempty = true) :
    "" ∉ keysOf (runOps c ops).data ∧ (runOps c ops).data.length ≤ c.maxKeys := by
  induction ops generalizing c with
  | nil => exact ⟨hne, hlen⟩
  | cons t rest ih =>
    simp only [List.all_cons, Bool.and_eq_true] at hops
    have hstep := bounded_stepOp c t hwf hne hmax hlen hops.1
    have hwf' := wf_stepOp c t hwf
    have hmax' : 0 < (stepOp c t).maxKeys := by
      rw [stepOp_maxKeys]; exact hmax
    have hlen' : (stepOp c t).data.length ≤ (stepOp c t).maxKeys := by
      rw [stepOp_maxKeys]; exact hstep.2
    have hrest := ih (stepOp c t) hwf' hstep.1 hmax' hlen' hops.2
    refine ⟨hrest.1, ?_⟩
    have := hrest.2
    rwa [stepOp_maxKeys] at this

/-- **C2.** When `max_keys > 0`, after any finite sequence of
`Set`/`Get`/`Del` (and `Cleanup`/replay) operations starting from a fresh
cache — including a `Set` of a key that is present but already expired —
the number of non-expired entries (`countValidKeys`) is at most `max_keys`
at every lock-release point, i.e. after every operation prefix and at
every measurement instant.  Keys are non-empty per the spec's data model
(`opKeysNonempty`). -/
theorem C2_live_count_bounded (maxKeys : Nat) (ops : List (Nat × Op)) (now : Nat)
    (hmax : 0 < maxKeys) (hops : ops.all opKeysNonempty = true) :
    countValidKeys (runOps (initCache maxKeys) ops) now ≤ maxKeys := by
  have h := bounded_runOps (initCache maxKeys) ops (wf_initCache maxKeys)
    (by simp [initCache, keysOf]) hmax (by simp [initCache]) hops
  calc countValidKeys (runOps (initCache maxKeys) ops) now
      ≤ (runOps (initCache maxKeys) ops).data.length := countValid_le_length _ now
    _ ≤ (initCache maxKeys).maxKeys := h.2
    _ = maxKeys := rfl

/-- Witness for C2: `max_keys = 1`, an overwrite of an expired key and an
eviction-triggering insert; the live count stays at 1. -/
theorem C2_live_count_bounded_witness :
    0 < 1 ∧
      ([((0 : Nat), Op.set "a" "v" 2), ((5 : Nat), Op.set "a" "v2" 0),
        ((6 : Nat), Op.set "b" "w" 0)].all opKeysNonempty = true) ∧
      countValidKeys (runOps (initCache 1)
        [((0 : Nat), Op.set "a" "v" 2), ((5 : Nat), Op.set "a" "v2" 0),
         ((6 : Nat), Op.set "b" "w" 0)]) 7 ≤ 1 :=
  ⟨by decide, by decide,
    C2_live_count_bounded 1
      [((0 : Nat), Op.set "a" "v" 2), ((5 : Nat), Op.set "a" "v2" 0),
       ((6 : Nat), Op.set "b" "w" 0)] 7 (by decide) (by decide)⟩

/-! ## GET semantics (C6) -/

/-- **C6.** `Get` on an absent key returns not-found and leaves the state
untouched; `Get` on a key whose stored expiry is a real instant strictly
earlier than `now` removes the key from all three maps, returns not-found,
and leaves the AOF log untouched (the result record keeps `log := c.log`);
`Get` on a present, non-expired key sets `lastAccess[key] = now` and
returns the stored value. -/
theorem C6_get_semantics (c : Cache) (key : String) (now : Nat) :
    (mapLookup key c.data = none →
      cacheGet key now c = (c, ("", false))) ∧
    (∀ v, mapLookup key c.data = some v → keyExpiredIn c.expires now key = true →
      cacheGet key now c =
        ({ c with data := mapErase key c.data,
                  expires := mapErase key c.expires,
                  lastAccess := mapErase key c.lastAccess }, ("", false))) ∧
    (∀ v, mapLookup key c.data = some v → keyExpiredIn c.expires now key = false →
      cacheGet key now c =
        ({ c with lastAccess := mapInsert key now c.lastAccess }, (v, true))) := by
  refine ⟨?_, ?_, ?_⟩
  · intro h
    unfold cacheGet
    rw [h]
  · intro v hv hexp
    unfold cacheGet
    rw [hv]
    dsimp only
    rw [if_pos hexp]
  · intro v hv hexp
    unfold cacheGet
    rw [hv]
    dsimp only
    rw [if_neg (by simp [hexp])]

/-- Witness for C6 at `now = 5`: an absent key, an expired key, and a live
key, each hypothesis discharged concretely. -/
theorem C6_get_semantics_witness :
    cacheGet "z" 5 getExample = (getExample, ("", false)) ∧
      cacheGet "e" 5 getExample =
        ({ getExample with data := mapErase "e" getExample.data,
                           expires := mapErase "e" getExample.expires,
                           lastAccess := mapErase "e" getExample.lastAccess }, ("", false)) ∧
      cacheGet "k" 5 getExample =
        ({ getExample with
            lastAccess := mapInsert "k" 5 getExample.lastAccess }, ("v", true)) :=
  ⟨(C6_get_semantics getExample "z" 5).1 (by decide),
   (C6_get_semantics getExample "e" 5).2.1 "w" (by decide) (by decide),
   (C6_get_semantics getExample "k" 5).2.2 "v" (by decide) (by decide)⟩

/-! ## DEL of an absent key (C10) -/

theorem mapErase_eq_self (k : String) {β : Type u} (l : List (String × β))
    (h : k ∉ keysOf l) : mapErase k l = l := by
  unfold mapErase
  apply List.filter_eq_self.2
  intro a ha
  have hne : a.1 ≠ k := fun hc => h (hc ▸ List.mem_map_of_mem Prod.fst ha)
  simp [hne]

/-- **C10.** `Del` on a key absent from the Index still appends a
`DEL{key}` record to the AOF (and returns; `Del` cannot fail), while the
in-memory maps are unchanged, so the AOF can contain DEL records for keys
that were never present. -/
theorem C10_del_absent_still_logged (c : Cache) (key : String)
    (hd : key ∉ keysOf c.data) (he : key ∉ keysOf c.expires)
    (hl : key ∉ keysOf c.lastAccess) (hen : c.enabled = true) :
    (cacheDel key c).data = c.data ∧ (cacheDel key c).expires = c.expires ∧
      (cacheDel key c).lastAccess = c.lastAccess ∧
      (cacheDel key c).log =
        c.log ++ [{ op := "DEL", key := key, value := "", ttl := 0 }] := by
  unfold cacheDel delInternal logDel
  rw [mapErase_eq_self key c.data hd, mapErase_eq_self key c.expires he,
      mapErase_eq_self key c.lastAccess hl]
  simp [hen]

/-- Witness for C10: deleting `"ghost"`, never present, appends the DEL
record and changes nothing in memory. -/
theorem C10_del_absent_still_logged_witness :
    (cacheDel "ghost" getExample).data = getExample.data ∧
      (cacheDel "ghost" getExample).expires = getExample.expires ∧
      (cacheDel "ghost" getExample).lastAccess = getExample.lastAccess ∧
      (cacheDel "ghost" getExample).log =
        getExample.log ++ [{ op := "DEL", key := "ghost", value := "", ttl := 0 }] :=
  C10_del_absent_still_logged getExample "ghost" (by decide) (by decide)
    (by decide) (by decide)

/-! ## Empty key / empty value on SET (C3) -/

/-- **C3 (amended).** A SET whose key or value is empty is rejected with
HTTP 400 by the `setHandler` before the cache is ever invoked, so the
Index is unchanged and no AOF record is appended.  (The validation lives
in the transport handler; the core `Cache.Set` itself performs no input
checks — see `C3_counterexample`.) -/
theorem C3_empty_set_rejected (req : SetRequest) (now : Nat) (c : Cache)
    (h : req.key = "" ∨ req.value = "") :
    setHandler req now c = (c, HResp.badRequest "Missing key or value") := by
  unfold setHandler
  rw [if_pos h]

/-- Witness for C3: a request with an empty value bounces off the handler
and the cache (with its AOF log) is returned unchanged. -/
theorem C3_empty_set_rejected_witness :
    setHandler { key := "k", value := "", ttl := none } 4 getExample =
      (getExample, HResp.badRequest "Missing key or value") :=
  C3_empty_set_rejected { key := "k", value := "", ttl := none } 4 getExample
    (Or.inr rfl)

/-- Counterexample to C3 as stated: the *core* cache operation
(`Cache.Set`) does not reject an empty key or value — called directly, it
mutates the Index and appends a SET record to the AOF. -/
theorem C3_counterexample :
    (cacheSet "" "v" 0 5 (initCache 0)).data = [("", "v")] ∧
      (cacheSet "" "v" 0 5 (initCache 0)).log =
        [{ op := "SET", key := "", value := "v", ttl := 0 }] := by
  decide

/-! ## LRU candidate selection (C5) -/

/-- **C5 (amended).** When the cache holds at least one non-expired
tracked entry, `evictLRU`'s selection (`findLRU`) scans all of
`lastAccess`, ignores expired keys, and returns a non-expired key whose
`last_access` is minimal among all non-expired entries.  Ties between
equal `last_access` values are broken by the map iteration order (the
first entry encountered wins), which is *not* the key ordering and makes
the selection depend on iteration order — see `C5_counterexample`. -/
theorem C5_lru_selection (c : Cache) (now : Nat)
    (h : ∃ kt ∈ c.lastAccess, isExpired c now kt.1 = false) :
    ∃ t, (findLRU now c, t) ∈ c.lastAccess ∧
      isExpired c now (findLRU now c) = false ∧
      ∀ kt ∈ c.lastAccess, isExpired c now kt.1 = false → t ≤ kt.2 := by
  obtain ⟨kt0, hmem0, hlive0⟩ := h
  cases hres : findLRULoop (fun k => isExpired c now k) c.lastAccess none with
  | none =>
    have hall := (findLRULoop_eq_none_iff (fun k => isExpired c now k)
      c.lastAccess none).1 hres
    have := hall.2 kt0 hmem0
    rw [hlive0] at this
    exact absurd this (by simp)
  | some r =>
    have hfind : findLRU now c = r.1 := by
      unfold findLRU isExpired
      rw [show (fun k => keyExpiredIn c.expires now k) =
            (fun k => isExpired c now k) from rfl, hres]
    have hmem := findLRULoop_mem (fun k => isExpired c now k) c.lastAccess none r hres
    rcases hmem with ⟨hrmem, hrlive⟩ | hbad
    · have hmin := findLRULoop_min (fun k => isExpired c now k) c.lastAccess none r hres
      refine ⟨r.2, ?_, ?_, ?_⟩
      · rw [hfind]
        exact hrmem
      · rw [hfind]
        exact hrlive
      · exact hmin.1
    · simp at hbad

/-- Counterexample to C5 as stated: on the same Index state (the maps of
`tieCacheA` and `tieCacheB` are permutations, i.e. equal as Go maps) the
eviction candidate differs with the iteration order, and in `tieCacheB`
the tie is not broken toward the smaller key `"a"` — so the selected key
is neither chosen by key ordering nor a deterministic function of the
Index state. -/
theorem C5_counterexample :
    List.Perm tieCacheA.data tieCacheB.data ∧
      List.Perm tieCacheA.expires tieCacheB.expires ∧
      List.Perm tieCacheA.lastAccess tieCacheB.lastAccess ∧
      findLRU 9 tieCacheA = "a" ∧ findLRU 9 tieCacheB = "b" ∧
      findLRU 9 tieCacheA ≠ findLRU 9 tieCacheB := by
  decide

/-- Witness for C5: the selection on `tieCacheA` is a live key. -/
theorem C5_lru_selection_witness : isExpired tieCacheA 9 (findLRU 9 tieCacheA) = false := by
  obtain ⟨t, hmem, hlive, hmin⟩ :=
    C5_lru_selection tieCacheA 9 ⟨("a", 5), by decide, by decide⟩
  exact hlive

/-! ## AOF replay robustness (C7) -/

/-- The scan loop applies exactly the well-formed known-op records in
order: malformed lines (truncated final line included) and unknown op tags
are skipped without affecting the result. -/
theorem replay_filterMap_wellFormed (now : Nat) (c : Cache) (lines : List AOFLine) :
    replay now c lines =
        (lines.filterMap wellFormedLine).foldl (applyRecord now) c ∧
      replay now c (lines ++ [AOFLine.malformed]) = replay now c lines := by
  constructor
  · induction lines generalizing c with
    | nil => rfl
    | cons l rest ih =>
      cases l with
      | blank =>
        simpa [replay, replayLine, wellFormedLine] using ih c
      | malformed =>
        simpa [replay, replayLine, wellFormedLine] using ih c
      | record cmd =>
        by_cases hset : cmd.op = "SET"
        · have h1 : wellFormedLine (AOFLine.record cmd) = some cmd := by
            simp [wellFormedLine, hset]
          have h2 : replayLine now c (AOFLine.record cmd) = applyRecord now c cmd := by
            simp [replayLine, applyRecord, hset]
          simpa [replay, h1, h2] using ih (applyRecord now c cmd)
        · by_cases hdel : cmd.op = "DEL"
          · have h1 : wellFormedLine (AOFLine.record cmd) = some cmd := by
              simp [wellFormedLine, hdel]
            have h2 : replayLine now c (AOFLine.record cmd) = applyRecord now c cmd := by
              simp [replayLine, applyRecord, hset, hdel]
            simpa [replay, h1, h2] using ih (applyRecord now c cmd)
          · have h1 : wellFormedLine (AOFLine.record cmd) = none := by
              simp [wellFormedLine, hset, hdel]
            have h2 : replayLine now c (AOFLine.record cmd) = c := by
              simp [replayLine, hset, hdel]
            simpa [replay, h1, h2] using ih c
  · simp [replay, List.foldl_append, replayLine]

/-- When no line exceeds the scanner's token limit, the scan succeeds and
reduces to the loop over the delivered lines. -/
theorem scanReplay_of_no_tooLong (now : Nat) (file : List RawLine) :
    ∀ c : Cache, RawLine.tooLong ∉ file →
      scanReplay now c file = (replay now c (file.filterMap rawOk), true) := by
  induction file with
  | nil =>
    intro c _
    rfl
  | cons r rest ih =>
    intro c h
    cases r with
    | ok l =>
      have h' : RawLine.tooLong ∉ rest := fun hc => h (List.mem_cons_of_mem _ hc)
      show scanReplay now (replayLine now c l) rest = _
      rw [ih (replayLine now c l) h']
      simp [rawOk, replay]
    | tooLong => exact absurd (List.mem_cons_self _ _) h

/-- The scan stops at the first over-long line: the records before it are
applied, everything after it is never seen, and the error flag is set. -/
theorem scanReplay_tooLong (now : Nat) (pre : List RawLine) :
    ∀ (c : Cache) (post : List RawLine), RawLine.tooLong ∉ pre →
      scanReplay now c (pre ++ RawLine.tooLong :: post) =
        (replay now c (pre.filterMap rawOk), false) := by
  induction pre with
  | nil =>
    intro c post _
    rfl
  | cons r rest ih =>
    intro c post h
    cases r with
    | ok l =>
      have h' : RawLine.tooLong ∉ rest := fun hc => h (List.mem_cons_of_mem _ hc)
      show scanReplay now (replayLine now c l) (rest ++ RawLine.tooLong :: post) = _
      rw [ih (replayLine now c l) post h']
      simp [rawOk, replay]
    | tooLong => exact absurd (List.mem_cons_self _ _) h

/-- **C7 (amended).** For every AOF file content whose lines stay within
`bufio.Scanner`'s 64 KiB token limit, replay applies each well-formed
record in file order, skips every malformed line (a truncated final line
included) and every record with an unknown op tag with a warning, and
does not abort: the resulting Index equals applying exactly the
well-formed known-op records in order.  If a line exceeds the scanner's
token limit, however, scanning stops there: exactly the well-formed
records preceding that line are applied and `Replay` returns the scanner
error, which aborts recovery — see `C7_counterexample`. -/
theorem C7_replay_scan_semantics (now : Nat) (c : Cache) (file : List RawLine) :
    (RawLine.tooLong ∉ file →
      replayFull now c file =
        Except.ok (((file.filterMap rawOk).filterMap wellFormedLine).foldl
          (applyRecord now) c)) ∧
    (∀ pre post : List RawLine, RawLine.tooLong ∉ pre →
      replayFull now c (pre ++ RawLine.tooLong :: post) =
          Except.error "error reading AOF file" ∧
        (scanReplay now c (pre ++ RawLine.tooLong :: post)).1 =
          ((pre.filterMap rawOk).filterMap wellFormedLine).foldl (applyRecord now) c) ∧
    (RawLine.tooLong ∉ file →
      replayFull now c (file ++ [RawLine.ok AOFLine.malformed]) =
        replayFull now c file) := by
  refine ⟨?_, ?_, ?_⟩
  · intro h
    unfold replayFull
    rw [scanReplay_of_no_tooLong now file c h]
    rw [(replay_filterMap_wellFormed now c (file.filterMap rawOk)).1]
  · intro pre post h
    constructor
    · unfold replayFull
      rw [scanReplay_tooLong now pre c post h]
    · rw [scanReplay_tooLong now pre c post h]
      exact (replay_filterMap_wellFormed now c (pre.filterMap rawOk)).1
  · intro h
    have h2 : RawLine.tooLong ∉ file ++ [RawLine.ok AOFLine.malformed] := by
      intro hc
      rcases List.mem_append.1 hc with h1 | h1
      · exact h h1
      · simp at h1
    unfold replayFull
    rw [scanReplay_of_no_tooLong now _ c h2, scanReplay_of_no_tooLong now file c h]
    have hfm : (file ++ [RawLine.ok AOFLine.malformed]).filterMap rawOk =
        file.filterMap rawOk ++ [AOFLine.malformed] := by
      simp [rawOk]
    rw [hfm, (replay_filterMap_wellFormed now c (file.filterMap rawOk)).2]

/-- Counterexample to C7 as stated: an AOF whose second line exceeds the
scanner's token limit makes recovery abort — `Replay` returns the scanner
error after applying only the first record, and the well-formed SET of
`"b"` after the over-long line is never applied, so replay neither
"never aborts" nor produces the Index of all well-formed records. -/
theorem C7_counterexample :
    replayFull 0 (initCache 0)
        [RawLine.ok (AOFLine.record { op := "SET", key := "a", value := "1", ttl := 0 }),
         RawLine.tooLong,
         RawLine.ok (AOFLine.record { op := "SET", key := "b", value := "2", ttl := 0 })] =
      Except.error "error reading AOF file" ∧
    (scanReplay 0 (initCache 0)
        [RawLine.ok (AOFLine.record { op := "SET", key := "a", value := "1", ttl := 0 }),
         RawLine.tooLong,
         RawLine.ok (AOFLine.record { op := "SET", key := "b", value := "2", ttl := 0 })]).1.data =
      [("a", "1")] := by
  constructor
  · rfl
  · rfl

/-- Witness for C7: a short file (one record, one truncated line) is
scanned without error and replays to the fold of its well-formed
records. -/
theorem C7_replay_scan_semantics_witness :
    replayFull 0 (initCache 0)
        [RawLine.ok (AOFLine.record { op := "SET", key := "a", value := "1", ttl := 0 }),
         RawLine.ok AOFLine.malformed] =
      Except.ok ((([RawLine.ok (AOFLine.record { op := "SET", key := "a", value := "1", ttl := 0 }),
          RawLine.ok AOFLine.malformed].filterMap rawOk).filterMap wellFormedLine).foldl
        (applyRecord 0) (initCache 0)) :=
  (C7_replay_scan_semantics 0 (initCache 0)
      [RawLine.ok (AOFLine.record { op := "SET", key := "a", value := "1", ttl := 0 }),
       RawLine.ok AOFLine.malformed]).1 (by decide)

/-! ## Snapshot-then-truncate (C8) -/

/-- **C8.** In `CreateSnapshotAndClearAOF`: if `SaveSnapshot` fails (at any
of its failure points) the AOF file is not truncated, its contents and the
published snapshot are unchanged, and the failure is reported; only when
`SaveSnapshot` succeeds is the AOF truncated to length 0 (and reopened for
append, which `DiskState` models by keeping `aofRecords` writable). -/
theorem C8_truncate_only_after_snapshot (fail : Option SnapFail) (c : Cache)
    (now : Nat) (d : DiskState) :
    (fail.isSome = true →
      (createSnapshotAndClearAOF fail c now d).1.aofRecords = d.aofRecords ∧
        (createSnapshotAndClearAOF fail c now d).1.snapFile = d.snapFile ∧
        (createSnapshotAndClearAOF fail c now d).2 = false) ∧
    (fail = none →
      (createSnapshotAndClearAOF fail c now d).1.aofRecords = [] ∧
        (createSnapshotAndClearAOF fail c now d).1.snapFile =
          some (snapshotOf c now) ∧
        (createSnapshotAndClearAOF fail c now d).2 = true) := by
  cases fail with
  | none => simp [createSnapshotAndClearAOF, saveSnapshot, clearAOF]
  | some f =>
    cases f <;> simp [createSnapshotAndClearAOF, saveSnapshot, clearAOF]

/-- Witness for C8: a failed encode leaves the AOF intact; a successful
run truncates it. -/
theorem C8_truncate_only_after_snapshot_witness :
    (createSnapshotAndClearAOF (some SnapFail.encode) getExample 7 diskExample).1.aofRecords =
        diskExample.aofRecords ∧
      (createSnapshotAndClearAOF none getExample 7 diskExample).1.aofRecords = [] :=
  ⟨((C8_truncate_only_after_snapshot (some SnapFail.encode) getExample 7 diskExample).1
      (by decide)).1,
   ((C8_truncate_only_after_snapshot none getExample 7 diskExample).2 rfl).1⟩

/-! ## Crash recovery by replay (C1)

The pre-crash run uses the public, logging operations; recovery replays
the durable log through `startupState` (no snapshot was ever taken during
a pure `Set`/`Del` history, so the snapshot file is absent). -/

theorem mapLookup_mem (k : String) {β : Type u} (v : β) (l : List (String × β))
    (h : mapLookup k l = some v) : (k, v) ∈ l := by
  induction l with
  | nil => simp [mapLookup] at h
  | cons kv rest ih =>
    unfold mapLookup at h
    by_cases hk : kv.1 = k
    · rw [if_pos hk] at h
      have hv : kv.2 = v := by simpa using h
      have hkv : (k, v) = kv := by
        rw [← hk, ← hv]
      rw [hkv]
      exact List.mem_cons_self kv rest
    · rw [if_neg hk] at h
      exact List.mem_cons_of_mem _ (ih h)

theorem liveKey_of_noexpiry (now : Nat) (exps : List (String × Option Nat))
    (h : ∀ kv ∈ exps, kv.2 = none) (k : String) :
    liveKey exps now k = true := by
  unfold liveKey keyExpiredIn
  cases hl : mapLookup k exps with
  | none => rfl
  | some e =>
    have hmem : (k, e) ∈ exps := mapLookup_mem k e exps hl
    have he : e = none := h (k, e) hmem
    rw [he]
    rfl

theorem isExpired_of_noexpiry (c : Cache) (now : Nat)
    (hexp : ∀ kv ∈ c.expires, kv.2 = none) (k : String) :
    isExpired c now k = false := by
  unfold isExpired
  have h := liveKey_of_noexpiry now c.expires hexp k
  unfold liveKey at h
  simpa using h

/-- With no real expiry instants stored, the sweep is the identity. -/
theorem cleanup_id_of_noexpiry (now : Nat) (c : Cache)
    (hexp : ∀ kv ∈ c.expires, kv.2 = none) :
    cleanupExpiredLocked now c = c := by
  unfold cleanupExpiredLocked
  have h1 : c.data.filter (fun kv => liveKey c.expires now kv.1) = c.data :=
    List.filter_eq_self.2 fun kv _ => liveKey_of_noexpiry now c.expires hexp kv.1
  have h2 : c.expires.filter (fun kv => liveKey c.expires now kv.1) = c.expires :=
    List.filter_eq_self.2 fun kv _ => liveKey_of_noexpiry now c.expires hexp kv.1
  have h3 : c.lastAccess.filter (fun kv => liveKey c.expires now kv.1) = c.lastAccess :=
    List.filter_eq_self.2 fun kv _ => liveKey_of_noexpiry now c.expires hexp kv.1
  rw [h1, h2, h3]

/-- With no real expiry instants stored, every key counts as valid. -/
theorem countValid_of_noexpiry (c : Cache) (now : Nat)
    (hexp : ∀ kv ∈ c.expires, kv.2 = none) :
    countValidKeys c now = c.data.length := by
  unfold countValidKeys
  rw [List.filter_eq_self.2 fun kv _ => liveKey_of_noexpiry now c.expires hexp kv.1]

theorem mem_mapInsert (kv' : String × Option Nat) (k : String) (v : Option Nat)
    (l : List (String × Option Nat)) (h : kv' ∈ mapInsert k v l) :
    kv' = (k, v) ∨ kv' ∈ l := by
  induction l with
  | nil => simpa [mapInsert] using h
  | cons kv rest ih =>
    unfold mapInsert at h
    by_cases hk : kv.1 = k
    · rw [if_pos hk] at h
      rcases List.mem_cons.1 h with h1 | h1
      · exact Or.inl h1
      · exact Or.inr (List.mem_cons_of_mem _ h1)
    · rw [if_neg hk] at h
      rcases List.mem_cons.1 h with h1 | h1
      · exact Or.inr (h1 ▸ List.mem_cons_self kv rest)
      · rcases ih h1 with h2 | h2
        · exact Or.inl h2
        · exact Or.inr (List.mem_cons_of_mem _ h2)

theorem noexpiry_mapInsert (k : String) (l : List (String × Option Nat))
    (h : ∀ kv ∈ l, kv.2 = none) :
    ∀ kv ∈ mapInsert k none l, kv.2 = (none : Option Nat) := by
  intro kv hkv
  rcases mem_mapInsert kv k none l hkv with h1 | h1
  · rw [h1]
  · exact h kv h1

theorem noexpiry_mapErase (k : String) (l : List (String × Option Nat))
    (h : ∀ kv ∈ l, kv.2 = none) :
    ∀ kv ∈ mapErase k l, kv.2 = (none : Option Nat) := by
  intro kv hkv
  exact h kv (List.mem_filter.1 hkv).1

/-- The LRU candidate is one of the tracked keys whenever some tracked key
is live. -/
theorem findLRU_mem_of_live (now : Nat) (c : Cache)
    (hne : c.lastAccess ≠ [])
    (hlive : ∀ k ∈ keysOf c.lastAccess, isExpired c now k = false) :
    findLRU now c ∈ keysOf c.lastAccess := by
  obtain ⟨kt0, hkt0⟩ : ∃ kt, kt ∈ c.lastAccess := by
    cases hca : c.lastAccess with
    | nil => exact absurd hca hne
    | cons kv rest => exact ⟨kv, hca ▸ List.mem_cons_self kv rest⟩
  have hkt0live : isExpired c now kt0.1 = false :=
    hlive kt0.1 (List.mem_map_of_mem Prod.fst hkt0)
  cases hres : findLRULoop (fun k => isExpired c now k) c.lastAccess none with
  | none =>
    have hall := (findLRULoop_eq_none_iff (fun k => isExpired c now k)
      c.lastAccess none).1 hres
    have hbad := hall.2 kt0 hkt0
    rw [hkt0live] at hbad
    exact absurd hbad (by simp)
  | some r =>
    have hfind : findLRU now c = r.1 := by
      unfold findLRU isExpired
      rw [show (fun k => keyExpiredIn c.expires now k) =
            (fun k => isExpired c now k) from rfl, hres]
    rcases findLRULoop_mem (fun k => isExpired c now k) c.lastAccess none r hres with
      ⟨hrmem, -⟩ | hbad
    · rw [hfind]
      exact List.mem_map_of_mem Prod.fst hrmem
    · simp at hbad

/-- With no real expiry instants and the capacity branch not taken,
`setInternal` is a plain three-map insert. -/
theorem setInternal_noevict_spec (key value : String) (now : Nat) (c : Cache)
    (hexp : ∀ kv ∈ c.expires, kv.2 = none)
    (hcond : (decide (0 < c.maxKeys) && !(hasKey c key) &&
      decide (c.maxKeys ≤ c.data.length)) = false) :
    setInternal key value 0 now c =
      { c with data := mapInsert key value c.data,
               expires := mapInsert key none c.expires,
               lastAccess := mapInsert key now c.lastAccess } := by
  simp only [setInternal]
  rw [cleanup_id_of_noexpiry now c hexp, countValid_of_noexpiry c now hexp,
      if_neg (by simp [hcond])]
  simp [expiryOf]

/-- With no real expiry instants and the capacity branch taken (and a
usable LRU candidate), `setInternal` erases the candidate from all three
maps, logs its DEL, then inserts the new binding. -/
theorem setInternal_evict_spec (key value : String) (now : Nat) (c : Cache)
    (hexp : ∀ kv ∈ c.expires, kv.2 = none)
    (hcond : (decide (0 < c.maxKeys) && !(hasKey c key) &&
      decide (c.maxKeys ≤ c.data.length)) = true)
    (hla : c.lastAccess.isEmpty = false)
    (hfind : findLRU now c ≠ "")
    (hen : c.enabled = true) :
    setInternal key value 0 now c =
      { c with data := mapInsert key value (mapErase (findLRU now c) c.data),
               expires := mapInsert key none (mapErase (findLRU now c) c.expires),
               lastAccess := mapInsert key now (mapErase (findLRU now c) c.lastAccess),
               log := c.log ++
                 [{ op := "DEL", key := findLRU now c, value := "", ttl := 0 }] } := by
  have hev : evictLRU now c =
      { c with data := mapErase (findLRU now c) c.data,
               expires := mapErase (findLRU now c) c.expires,
               lastAccess := mapErase (findLRU now c) c.lastAccess,
               log := c.log ++
                 [{ op := "DEL", key := findLRU now c, value := "", ttl := 0 }] } := by
    simp only [evictLRU]
    rw [if_neg (by simp [hla]), if_neg hfind]
    simp [logDel, hen]
  simp only [setInternal]
  rw [cleanup_id_of_noexpiry now c hexp, countValid_of_noexpiry c now hexp,
      if_pos hcond, hev]
  simp [expiryOf]

theorem c1_step (L R : Cache) (t : Nat × Op) (T : Nat)
    (h : C1Inv L R) (hop : setDelNoTTL t = true) :
    ∃ Δ : List AOFCommand,
      (stepOp L t).log = L.log ++ Δ ∧
      C1Inv (stepOp L t) (replay T R (Δ.map AOFLine.record)) := by
  obtain ⟨hwfL, hwfR, hneL, hlenL, hexpL, hdata, hexp, henL, hmax⟩ := h
  have hexpR : ∀ kv ∈ R.expires, kv.2 = none := by
    rw [hexp]; exact hexpL
  rcases t with ⟨now, op⟩
  cases op with
  | get k => simp [setDelNoTTL] at hop
  | cleanup => simp [setDelNoTTL] at hop
  | setI k v ttl => simp [setDelNoTTL] at hop
  | delI k => simp [setDelNoTTL] at hop
  | del k =>
    refine ⟨[{ op := "DEL", key := k, value := "", ttl := 0 }], ?_, ?_⟩
    · show (cacheDel k L).log = _
      simp [cacheDel, delInternal, logDel, henL]
    · have hrep : replay T R
          ([{ op := "DEL", key := k, value := "", ttl := 0 }].map AOFLine.record) =
          delInternal k R := by
        simp [replay, replayLine]
      rw [hrep]
      show C1Inv (cacheDel k L) (delInternal k R)
      refine ⟨wf_cacheDel k L hwfL, wf_delInternal k R hwfR, ?_, ?_, ?_, ?_, ?_, ?_, ?_⟩
      · show "" ∉ keysOf (cacheDel k L).data
        rw [cacheDel_data]
        exact fun hc => hneL (mapErase_keys_subset k "" L.data hc)
      · intro hpos
        rw [cacheDel_data]
        have : (cacheDel k L).maxKeys = L.maxKeys := by
          simp [cacheDel, delInternal]
        rw [this] at hpos ⊢
        exact le_trans (mapErase_length_le k L.data) (hlenL hpos)
      · show ∀ kv ∈ (cacheDel k L).expires, kv.2 = none
        have : (cacheDel k L).expires = mapErase k L.expires := by
          simp [cacheDel, delInternal]
        rw [this]
        exact noexpiry_mapErase k L.expires hexpL
      · show (delInternal k R).data = (cacheDel k L).data
        rw [cacheDel_data]
        show mapErase k R.data = mapErase k L.data
        rw [hdata]
      · show (delInternal k R).expires = (cacheDel k L).expires
        have : (cacheDel k L).expires = mapErase k L.expires := by
          simp [cacheDel, delInternal]
        rw [this]
        show mapErase k R.expires = mapErase k L.expires
        rw [hexp]
      · show (cacheDel k L).enabled = true
        simp [cacheDel, delInternal, henL]
      · show (delInternal k R).maxKeys = (cacheDel k L).maxKeys
        have h1 : (cacheDel k L).maxKeys = L.maxKeys := by
          simp [cacheDel, delInternal]
        rw [h1]
        show R.maxKeys = L.maxKeys
        exact hmax
  | set k v ttl =>
    have hops : k ≠ "" ∧ ttl = 0 := by
      simpa [setDelNoTTL] using hop
    obtain ⟨hk, httl⟩ := hops
    subst httl
    by_cases hcond : (decide (0 < L.maxKeys) && !(hasKey L k) &&
        decide (L.maxKeys ≤ L.data.length)) = true
    · -- the capacity branch fires on the live side
      have hA : (0 < L.maxKeys ∧ hasKey L k = false) ∧ L.maxKeys ≤ L.data.length := by
        simpa [Bool.and_eq_true, Bool.not_eq_true'] using hcond
      obtain ⟨⟨hpos, hHK⟩, hge⟩ := hA
      have hlen : L.data.length = L.maxKeys := le_antisymm (hlenL hpos) hge
      have hdne : L.data ≠ [] := by
        intro hc
        rw [hc] at hlen
        simp at hlen
        omega
      have hlane : L.lastAccess ≠ [] := by
        intro hc
        apply hdne
        have hkeys : keysOf L.data = [] := by
          rw [hwfL.alignL, hc]
          rfl
        cases hd : L.data with
        | nil => rfl
        | cons kv rest => rw [hd] at hkeys; simp [keysOf] at hkeys
      have hla : L.lastAccess.isEmpty = false := by
        cases hca : L.lastAccess with
        | nil => exact absurd hca hlane
        | cons kv rest => rfl
      have hlru : findLRU now L ∈ keysOf L.lastAccess :=
        findLRU_mem_of_live now L hlane
          (fun k' _ => isExpired_of_noexpiry L now hexpL k')
      have hlruD : findLRU now L ∈ keysOf L.data := by
        rw [hwfL.alignL]; exact hlru
      have hfind : findLRU now L ≠ "" := fun hc => hneL (hc ▸ hlruD)
      have hLspec := setInternal_evict_spec k v now L hexpL hcond hla hfind henL
      -- the replay side: an explicit DEL followed by a SET that does not evict
      have hR1exp : ∀ kv ∈ (delInternal (findLRU now L) R).expires, kv.2 = none := by
        show ∀ kv ∈ mapErase (findLRU now L) R.expires, kv.2 = none
        exact noexpiry_mapErase _ R.expires hexpR
      have hR1len : (delInternal (findLRU now L) R).data.length + 1 = L.maxKeys := by
        show (mapErase (findLRU now L) R.data).length + 1 = L.maxKeys
        rw [hdata, ← hlen]
        exact length_mapErase_of_mem (findLRU now L) L.data hwfL.nodup hlruD
      have hRcond : (decide (0 < (delInternal (findLRU now L) R).maxKeys) &&
          !(hasKey (delInternal (findLRU now L) R) k) &&
          decide ((delInternal (findLRU now L) R).maxKeys ≤
            (delInternal (findLRU now L) R).data.length)) = false := by
        have hmk : (delInternal (findLRU now L) R).maxKeys = L.maxKeys := by
          show R.maxKeys = L.maxKeys
          exact hmax
        have hlt : ¬ ((delInternal (findLRU now L) R).maxKeys ≤
            (delInternal (findLRU now L) R).data.length) := by
          rw [hmk]
          omega
        simp [hlt]
      have hRspec := setInternal_noevict_spec k v T (delInternal (findLRU now L) R)
        hR1exp hRcond
      refine ⟨[{ op := "DEL", key := findLRU now L, value := "", ttl := 0 },
               { op := "SET", key := k, value := v, ttl := 0 }], ?_, ?_⟩
      · show (cacheSet k v 0 now L).log = _
        unfold cacheSet
        rw [hLspec]
        rw [logSet_log_of_enabled k v 0 _ (by simpa using henL)]
        simp
      · have hrep : replay T R
            ([{ op := "DEL", key := findLRU now L, value := "", ttl := 0 },
              { op := "SET", key := k, value := v, ttl := 0 }].map AOFLine.record) =
            setInternal k v 0 T (delInternal (findLRU now L) R) := by
          simp [replay, replayLine]
        rw [hrep, hRspec]
        show C1Inv (cacheSet k v 0 now L) _
        have hLdata : (cacheSet k v 0 now L).data =
            mapInsert k v (mapErase (findLRU now L) L.data) := by
          unfold cacheSet
          rw [hLspec]
          simp
        have hLexp : (cacheSet k v 0 now L).expires =
            mapInsert k none (mapErase (findLRU now L) L.expires) := by
          unfold cacheSet
          rw [hLspec]
          simp
        refine ⟨wf_cacheSet k v 0 now L hwfL, ?_, ?_, ?_, ?_, ?_, ?_, ?_, ?_⟩
        · exact wf_insertAll k v none T _ (wf_eraseAll (findLRU now L) R hwfR)
        · rw [hLdata]
          intro hc
          rw [keysOf_mapInsert] at hc
          split at hc
          · exact hneL (mapErase_keys_subset _ "" L.data hc)
          · rcases List.mem_append.1 hc with h1 | h1
            · exact hneL (mapErase_keys_subset _ "" L.data h1)
            · simp at h1
              exact hk h1.symm
        · intro hpos
          have hposL : 0 < L.maxKeys := by simpa using hpos
          have hb := setInternal_bounded k v 0 now L hwfL hk hneL hposL (hlenL hposL)
          have hdd : (cacheSet k v 0 now L).data = (setInternal k v 0 now L).data := by
            unfold cacheSet
            simp
          rw [hdd]
          simpa using hb.2
        · rw [hLexp]
          exact noexpiry_mapInsert k _ (noexpiry_mapErase _ L.expires hexpL)
        · show mapInsert k v (mapErase (findLRU now L) R.data) = _
          rw [hLdata, hdata]
        · show mapInsert k none (mapErase (findLRU now L) R.expires) = _
          rw [hLexp, hexp]
        · show (cacheSet k v 0 now L).enabled = true
          simpa using henL
        · show R.maxKeys = (cacheSet k v 0 now L).maxKeys
          simp [hmax]
    · -- no eviction on the live side
      have hcondF : (decide (0 < L.maxKeys) && !(hasKey L k) &&
          decide (L.maxKeys ≤ L.data.length)) = false := by
        cases h' : (decide (0 < L.maxKeys) && !(hasKey L k) &&
            decide (L.maxKeys ≤ L.data.length))
        · rfl
        · exact absurd h' hcond
      have hLspec := setInternal_noevict_spec k v now L hexpL hcondF
      have hRcond : (decide (0 < R.maxKeys) && !(hasKey R k) &&
          decide (R.maxKeys ≤ R.data.length)) = false := by
        have h1 : hasKey R k = hasKey L k := by
          unfold hasKey
          rw [hdata]
        rw [hmax, h1, hdata]
        exact hcondF
      have hRspec := setInternal_noevict_spec k v T R hexpR hRcond
      refine ⟨[{ op := "SET", key := k, value := v, ttl := 0 }], ?_, ?_⟩
      · show (cacheSet k v 0 now L).log = _
        unfold cacheSet
        rw [hLspec]
        rw [logSet_log_of_enabled k v 0 _ (by simpa using henL)]
        simp
      · have hrep : replay T R
            ([{ op := "SET", key := k, value := v, ttl := 0 }].map AOFLine.record) =
            setInternal k v 0 T R := by
          simp [replay, replayLine]
        rw [hrep, hRspec]
        show C1Inv (cacheSet k v 0 now L) _
        have hLdata : (cacheSet k v 0 now L).data = mapInsert k v L.data := by
          unfold cacheSet
          rw [hLspec]
          simp
        have hLexp : (cacheSet k v 0 now L).expires = mapInsert k none L.expires := by
          unfold cacheSet
          rw [hLspec]
          simp
        refine ⟨wf_cacheSet k v 0 now L hwfL, ?_, ?_, ?_, ?_, ?_, ?_, ?_, ?_⟩
        · exact wf_insertAll k v none T R hwfR
        · rw [hLdata]
          intro hc
          rw [keysOf_mapInsert] at hc
          split at hc
          · exact hneL hc
          · rcases List.mem_append.1 hc with h1 | h1
            · exact hneL h1
            · simp at h1
              exact hk h1.symm
        · intro hpos
          have hposL : 0 < L.maxKeys := by simpa using hpos
          have hb := setInternal_bounded k v 0 now L hwfL hk hneL hposL (hlenL hposL)
          have hdd : (cacheSet k v 0 now L).data = (setInternal k v 0 now L).data := by
            unfold cacheSet
            simp
          rw [hdd]
          simpa using hb.2
        · rw [hLexp]
          exact noexpiry_mapInsert k _ hexpL
        · show mapInsert k v R.data = _
          rw [hLdata, hdata]
        · show mapInsert k none R.expires = _
          rw [hLexp, hexp]
        · show (cacheSet k v 0 now L).enabled = true
          simpa using henL
        · show R.maxKeys = (cacheSet k v 0 now L).maxKeys
          simp [hmax]

theorem c1_run (T : Nat) (ops : List (Nat × Op)) :
    ∀ L R : Cache, C1Inv L R → ops.all setDelNoTTL = true →
      ∃ Δ : List AOFCommand,
        (runOps L ops).log = L.log ++ Δ ∧
        C1Inv (runOps L ops) (replay T R (Δ.map AOFLine.record)) := by
  induction ops with
  | nil =>
    intro L R h _
    exact ⟨[], by simp [runOps], by simpa [replay] using h⟩
  | cons t rest ih =>
    intro L R h hall
    simp only [List.all_cons, Bool.and_eq_true] at hall
    obtain ⟨d1, hlog1, hinv1⟩ := c1_step L R t T h hall.1
    obtain ⟨d2, hlog2, hinv2⟩ :=
      ih (stepOp L t) (replay T R (d1.map AOFLine.record)) hinv1 hall.2
    refine ⟨d1 ++ d2, ?_, ?_⟩
    · have hrw : runOps L (t :: rest) = runOps (stepOp L t) rest := rfl
      rw [hrw, hlog2, hlog1]
      simp
    · have hsplit : replay T R ((d1 ++ d2).map AOFLine.record) =
          replay T (replay T R (d1.map AOFLine.record)) (d2.map AOFLine.record) := by
        simp [replay, List.map_append, List.foldl_append]
      rw [hsplit]
      have hrw : runOps L (t :: rest) = runOps (stepOp L t) rest := rfl
      rw [hrw]
      exact hinv2

/-- **C1 (amended).** For every pre-crash cache state reachable by a
sequence of `Set`/`Del` operations whose `Set`s carry non-empty keys and
`ttl = 0` (no expiry), the startup path of `NewCache` — loading the
(absent) snapshot and replaying the AOF — reproduces an Index with the
same key set, values and expiry entries as the pre-crash Index, differing
at most in `last_access`, for any recovery instant and any capacity.
(With `ttl > 0` the code re-bases expirations at replay time, so the
as-stated claim fails: see `C1_counterexample`.) -/
theorem C1_replay_recovers_state (maxKeys : Nat) (ops : List (Nat × Op)) (T : Nat)
    (hops : ops.all setDelNoTTL = true) :
    (startupState none
        ((runOps (initCache maxKeys) ops).log.map AOFLine.record) T T maxKeys).data =
      (runOps (initCache maxKeys) ops).data ∧
    (startupState none
        ((runOps (initCache maxKeys) ops).log.map AOFLine.record) T T maxKeys).expires =
      (runOps (initCache maxKeys) ops).expires := by
  have hinv0 : C1Inv (initCache maxKeys) { initCache maxKeys with enabled := false } := by
    refine ⟨wf_initCache maxKeys, ⟨rfl, rfl, List.nodup_nil⟩, ?_, ?_, ?_, rfl, rfl, rfl, rfl⟩
    · simp [initCache, keysOf]
    · intro hpos
      simp [initCache]
    · intro kv hkv
      simp [initCache] at hkv
  obtain ⟨d, hlog, hinv⟩ := c1_run T ops (initCache maxKeys)
    { initCache maxKeys with enabled := false } hinv0 hops
  have hd : (runOps (initCache maxKeys) ops).log = d := by
    simpa [initCache] using hlog
  have hsu : startupState none
      ((runOps (initCache maxKeys) ops).log.map AOFLine.record) T T maxKeys =
      { replay T { initCache maxKeys with enabled := false }
          ((runOps (initCache maxKeys) ops).log.map AOFLine.record) with
        enabled := true } := rfl
  rw [hsu, hd]
  exact ⟨hinv.dataEq, hinv.expEq⟩

/-- Counterexample to C1 as stated: `Set("a","v",ttl=5s)` at instant 0
leaves `expires["a"] = 5` before the crash, but the AOF stores the
*relative* TTL, so replaying the record at recovery instant 10 yields
`expires["a"] = 15`: recovered expiration instants differ from the
pre-crash ones (and a key that had already expired would be revived). -/
theorem C1_counterexample :
    mapLookup "a" (cacheSet "a" "v" 5 0 (initCache 0)).expires = some (some 5) ∧
      mapLookup "a" (startupState none
        ((cacheSet "a" "v" 5 0 (initCache 0)).log.map AOFLine.record) 10 10 0).expires =
        some (some 15) ∧
      (startupState none ((cacheSet "a" "v" 5 0 (initCache 0)).log.map AOFLine.record)
          10 10 0).expires ≠ (cacheSet "a" "v" 5 0 (initCache 0)).expires := by
  decide

/-- Witness for C1: a three-operation history with `max_keys = 1` (so the
second `Set` evicts `"a"` and logs its DEL) recovers to the same `data`
map after replay at instant 50. -/
theorem C1_replay_recovers_state_witness :
    ([((0 : Nat), Op.set "a" "v" 0), ((1 : Nat), Op.set "b" "w" 0),
      ((2 : Nat), Op.del "z")].all setDelNoTTL = true) ∧
    (startupState none
        ((runOps (initCache 1)
          [((0 : Nat), Op.set "a" "v" 0), ((1 : Nat), Op.set "b" "w" 0),
           ((2 : Nat), Op.del "z")]).log.map AOFLine.record) 50 50 1).data =
      (runOps (initCache 1)
        [((0 : Nat), Op.set "a" "v" 0), ((1 : Nat), Op.set "b" "w" 0),
         ((2 : Nat), Op.del "z")]).data :=
  ⟨by decide,
   (C1_replay_recovers_state 1
      [((0 : Nat), Op.set "a" "v" 0), ((1 : Nat), Op.set "b" "w" 0),
       ((2 : Nat), Op.del "z")] 50 (by decide)).1⟩

/-! ## Eviction DEL ordering in the AOF (C4) -/

/-- **C4.** Whenever a `Set` of a new key triggers LRU eviction, the DEL
record for the evicted key (`findLRU` applied to the swept state) is
appended to the AOF strictly before the SET record of the triggering key;
and in particular, with `max_keys = 2`, the sequence
`Set a; Set b; Get a; Set c` produces the AOF record sequence
`SET a; SET b; DEL b; SET c` in that order. -/
theorem C4_eviction_del_before_set :
    (∀ (c : Cache) (key value : String) (ttl : Int) (now : Nat),
      c.enabled = true →
      (decide (0 < (cleanupExpiredLocked now c).maxKeys) && !(hasKey c key) &&
        decide ((cleanupExpiredLocked now c).maxKeys ≤
          countValidKeys (cleanupExpiredLocked now c) now)) = true →
      (cleanupExpiredLocked now c).lastAccess.isEmpty = false →
      findLRU now (cleanupExpiredLocked now c) ≠ "" →
      (cacheSet key value ttl now c).log =
        c.log ++ [{ op := "DEL", key := findLRU now (cleanupExpiredLocked now c),
                    value := "", ttl := 0 },
                  { op := "SET", key := key, value := value,
                    ttl := if 0 < ttl then ttl else 0 }]) ∧
    (runOps (initCache 2)
        [((0 : Nat), Op.set "a" "1" 0), ((1 : Nat), Op.set "b" "2" 0),
         ((2 : Nat), Op.get "a"), ((3 : Nat), Op.set "c" "3" 0)]).log =
      [{ op := "SET", key := "a", value := "1", ttl := 0 },
       { op := "SET", key := "b", value := "2", ttl := 0 },
       { op := "DEL", key := "b", value := "", ttl := 0 },
       { op := "SET", key := "c", value := "3", ttl := 0 }] := by
  constructor
  · intro c key value ttl now hen hcond hla hfind
    have hev : (evictLRU now (cleanupExpiredLocked now c)).log =
        c.log ++ [{ op := "DEL", key := findLRU now (cleanupExpiredLocked now c),
                    value := "", ttl := 0 }] ∧
        (evictLRU now (cleanupExpiredLocked now c)).enabled = true := by
      simp only [evictLRU]
      rw [if_neg (by simp [hla]), if_neg hfind]
      simp [logDel, hen]
    have hstep1 : (setInternal key value ttl now c).log =
        (evictLRU now (cleanupExpiredLocked now c)).log := by
      simp only [setInternal]
      rw [if_pos hcond]
    have hstep2 : (setInternal key value ttl now c).enabled = true := by
      have : (setInternal key value ttl now c).enabled =
          (evictLRU now (cleanupExpiredLocked now c)).enabled := by
        simp only [setInternal]
        rw [if_pos hcond]
      rw [this]
      exact hev.2
    unfold cacheSet
    rw [logSet_log_of_enabled key value ttl _ hstep2, hstep1, hev.1]
    simp
  · decide

/-- Witness for C4: the eviction step of the literal scenario, with every
hypothesis discharged at the state just before `Set("c","3",0)`. -/
theorem C4_eviction_del_before_set_witness :
    findLRU 3 (cleanupExpiredLocked 3 (runOps (initCache 2)
        [((0 : Nat), Op.set "a" "1" 0), ((1 : Nat), Op.set "b" "2" 0),
         ((2 : Nat), Op.get "a")])) = "b" ∧
    (cacheSet "c" "3" 0 3 (runOps (initCache 2)
        [((0 : Nat), Op.set "a" "1" 0), ((1 : Nat), Op.set "b" "2" 0),
         ((2 : Nat), Op.get "a")])).log =
      (runOps (initCache 2)
        [((0 : Nat), Op.set "a" "1" 0), ((1 : Nat), Op.set "b" "2" 0),
         ((2 : Nat), Op.get "a")]).log ++
        [{ op := "DEL", key := findLRU 3 (cleanupExpiredLocked 3 (runOps (initCache 2)
              [((0 : Nat), Op.set "a" "1" 0), ((1 : Nat), Op.set "b" "2" 0),
               ((2 : Nat), Op.get "a")])), value := "", ttl := 0 },
         { op := "SET", key := "c", value := "3",
           ttl := if (0 : Int) < 0 then 0 else 0 }] :=
  ⟨by decide,
   C4_eviction_del_before_set.1 (runOps (initCache 2)
      [((0 : Nat), Op.set "a" "1" 0), ((1 : Nat), Op.set "b" "2" 0),
       ((2 : Nat), Op.get "a")]) "c" "3" 0 3
     (by decide) (by decide) (by decide) (by decide)⟩

end MiniRedis
